import Mathlib

/-!
Verification of the check execution engine of bootcs-cli
(`src/bootcs/check/runner.py`, `src/bootcs/check/internal.py`,
`src/bootcs/check/regex.py`) against its natural-language specification.

The Python code is shallowly embedded: pure fragments become Lean
functions, the process-pool scheduler becomes a step function driven by an
explicit completion schedule (a list of indices choosing which in-flight
job finishes next), and exceptional control flow is made explicit.
-/

/-- Model of an arbitrary Python object handed between processes.
`picklable` records whether `pickle.dumps` succeeds on it. -/
structure PyObj where
  tag : String
  picklable : Bool
deriving Repr, DecidableEq

/-- Modelled from the spec: payload of the expected-failure class `Failure`
(`bootcs/check/_api.py` is absent from the source tree; spec section 7 says an
expected failure "carries a rationale string and optional remediation help"). -/
structure FailurePayload where
  rationale : String
  help : Option String := none
deriving Repr, DecidableEq

/-- The `"error"` sub-dict built by the `except BaseException` branch of the
check wrapper (`runner.py` lines 119-127): exception type name, `str(e)`,
formatted traceback and an optional `payload` attribute. -/
structure ErrorInfo where
  type : String
  value : String
  traceback : List String
  data : List (String × String) := []
deriving Repr, DecidableEq

/-- The `cause` dict stored on a `CheckResult`: a rationale, optional help
(from a `Failure` payload) and, for errored checks only, the error detail. -/
structure Cause where
  rationale : String
  help : Option String := none
  error : Option ErrorInfo := none
deriving Repr, DecidableEq

/-- Record returned by each check (`runner.py` class `CheckResult`).
`passed` is the Python tri-state `True` / `False` / `None`. -/
structure CheckResult where
  name : String
  description : Option String := none
  passed : Option Bool := none
  log : List String := []
  cause : Option Cause := none
  data : List (String × String) := []
  dependency : Option String := none
deriving Repr, DecidableEq

/-- A Python exception value, as far as the wrapper's classification needs:
the `Failure` hierarchy versus everything else (`BaseException` subclasses
such as `SystemExit` and `KeyboardInterrupt` included). -/
inductive PyExn where
  | failure (p : FailurePayload)
  | systemExit (code : Int) (traceback : List String)
  | keyboardInterrupt (traceback : List String)
  | other (type : String) (value : String) (traceback : List String)
      (payloadData : List (String × String))
deriving Repr, DecidableEq

/-- `type(e).__name__` for an exception caught by the wrapper. -/
def exnType : PyExn → String
  | .failure _ => "Failure"
  | .systemExit _ _ => "SystemExit"
  | .keyboardInterrupt _ => "KeyboardInterrupt"
  | .other t _ _ _ => t

/-- `str(e)` for an exception caught by the wrapper. -/
def exnValue : PyExn → String
  | .failure p => p.rationale
  | .systemExit c _ => toString c
  | .keyboardInterrupt _ => ""
  | .other _ v _ _ => v

/-- `traceback.format_tb(e.__traceback__)`. -/
def exnTraceback : PyExn → List String
  | .failure _ => []
  | .systemExit _ tb => tb
  | .keyboardInterrupt tb => tb
  | .other _ _ tb _ => tb

/-- `e.payload if hasattr(e, "payload") else {}` for the non-`Failure` branch. -/
def exnPayloadData : PyExn → List (String × String)
  | .failure p => [("rationale", p.rationale)]
  | .systemExit _ _ => []
  | .keyboardInterrupt _ => []
  | .other _ _ _ d => d

/-- Whether `except Failure` matches the exception. -/
def matchesFailure : PyExn → Bool
  | .failure _ => true
  | _ => false

/-- Whether `except BaseException` matches the exception: in Python every
exception derives from `BaseException`, so this is constantly true. -/
def matchesBaseException : PyExn → Bool := fun _ => true

/-- What the body of the `try` block does in a given execution of the check
wrapper: either the check function returns a state, or some exception is
raised (by setup, by the check function, or by the alarm handler), or the
function overruns its time budget so that the `SIGALRM` alarm fires. -/
inductive Behavior where
  | ret (state : Option PyObj)
  | raised (e : PyExn)
  | overrun
deriving Repr, DecidableEq

/-- Model of one function decorated with `@check(...)` (`runner.py` line 87):
its name, docstring, declared dependency (by name), timeout, log cap, the
behavior of its function in this run, and the log lines / data items its
execution leaves in the per-execution buffers. -/
structure Check where
  name : String
  doc : Option String := none
  dependency : Option String := none
  timeout : Nat := 60
  max_log_lines : Nat := 100
  behavior : Behavior := .ret none
  logLines : List String := []
  dataItems : List (String × String) := []
deriving Repr, DecidableEq

/-- `Timeout(seconds)` (`runner.py` lines 66-68): the timeout specialization
of `Failure`, carrying the rationale
`"check timed out after {} seconds".format(seconds)`. -/
def Timeout (seconds : Nat) : FailurePayload :=
  { rationale := "check timed out after " ++ toString seconds ++ " seconds" }

/-- `CheckResult.from_check` (`runner.py` lines 51-58): name, description
(docstring if truthy, else the name with underscores replaced by spaces) and
the dependency's name. -/
def CheckResult.from_check (c : Check) : CheckResult :=
  { name := c.name,
    description := some (match c.doc with
      | some d => if d = "" then c.name.replace "_" " " else d
      | none => c.name.replace "_" " "),
    dependency := c.dependency }

/-- Outcome of running the `try` body under `_timeout` (`runner.py` lines
71-84, 113-115): a completed value or a propagating exception; overrunning
the budget raises `Timeout(seconds)`, which is a `Failure`. -/
def tryBody (c : Check) : Option PyObj ⊕ PyExn :=
  match c.behavior with
  | .ret s => .inl s
  | .raised e => .inr e
  | .overrun => .inr (.failure (Timeout c.timeout))

/-- Python list slice `xs[-n:]`. Note `xs[-0:]` is `xs[0:]`, the whole list. -/
def pyTailSlice (n : Nat) (xs : List String) : List String :=
  if n = 0 then xs else xs.drop (xs.length - n)

/-- The log collection in the wrapper's `finally` block (`runner.py` line
131): `_log if len(_log) <= max_log_lines else ["..."] + _log[-max_log_lines:]`. -/
def truncatedLog (max_log_lines : Nat) (buf : List String) : List String :=
  if buf.length ≤ max_log_lines then buf else "..." :: pyTailSlice max_log_lines buf

/-- The `except Failure` handler (`runner.py` lines 116-118). -/
def handleFailure (r : CheckResult) (p : FailurePayload) : CheckResult :=
  { r with passed := some false,
           cause := some { rationale := p.rationale, help := p.help } }

/-- The `except BaseException` handler (`runner.py` lines 119-127). -/
def handleBaseException (r : CheckResult) (e : PyExn) : CheckResult :=
  { r with passed := none,
           cause := some { rationale := "check50 ran into an error while running checks!",
                           error := some { type := exnType e, value := exnValue e,
                                           traceback := exnTraceback e,
                                           data := exnPayloadData e } } }

/-- State after the `try`/`except`/`else` chain of the wrapper and before the
`finally` block: the result and state built so far, and the exception still
propagating if no handler matched it. -/
def afterHandlers (c : Check) : (CheckResult × Option PyObj) × Option PyExn :=
  let r0 := CheckResult.from_check c
  match tryBody c with
  | .inl s => (({ r0 with passed := some true }, s), none)
  | .inr e =>
    if matchesFailure e then
      match e with
      | .failure p => ((handleFailure r0 p, none), none)
      | _ => ((r0, none), some e)
    else if matchesBaseException e then
      ((handleBaseException r0 e, none), none)
    else
      ((r0, none), some e)

/-- The `finally` block (`runner.py` lines 130-133): collect log and data and
`return result, state`. -/
def finallyBlock (c : Check) (p : CheckResult × Option PyObj) : CheckResult × Option PyObj :=
  ({ p.1 with log := truncatedLog c.max_log_lines c.logLines, data := c.dataItems }, p.2)

/-- Result of a Python call as seen by the caller: a normal return value, or
an exception propagating out. -/
inductive PyCall (α : Type) where
  | normal (a : α)
  | raising (e : PyExn)
deriving Repr, DecidableEq

/-- The wrapper produced by `@check(...)` (`runner.py` lines 102-133), with
its exceptional control flow explicit: the `return` statement inside the
`finally` block replaces whatever exception was still propagating, so the
call always completes normally. -/
def wrapperCall (c : Check) : PyCall (CheckResult × Option PyObj) :=
  let (pair, _pending) := afterHandlers c
  .normal (finallyBlock c pair)

/-- The value returned by the wrapper. -/
def wrapper (c : Check) : CheckResult × Option PyObj :=
  match wrapperCall c with
  | .normal p => p
  | .raising _ => (CheckResult.from_check c, none)

/-! ### `internal.Register` (`internal.py` lines 45-97) -/

/-- The process-wide hook register (`internal.py`): lists of before-every,
after-every and (once-only) after-check callbacks, identified by name. -/
structure Register where
  before_everies : List String
  after_everies : List String
  after_checks : List String
deriving Repr, DecidableEq

/-- `Register.after_check` (`internal.py` lines 55-61): only legal while a
check is running; appends to `_after_checks`. -/
def Register.after_check (r : Register) (check_running : Bool) (f : String) :
    Except String Register :=
  if !check_running then
    .error "cannot register callback to run after check when no check is running"
  else
    .ok { r with after_checks := r.after_checks ++ [f] }

/-- `Register.after_every` (`internal.py` lines 63-69): only legal while no
check is running. -/
def Register.after_every (r : Register) (check_running : Bool) (f : String) :
    Except String Register :=
  if check_running then
    .error "cannot register callback to run after every check when check is running"
  else
    .ok { r with after_everies := r.after_everies ++ [f] }

/-- `Register.before_every` (`internal.py` lines 71-77). -/
def Register.before_every (r : Register) (check_running : Bool) (f : String) :
    Except String Register :=
  if check_running then
    .error "cannot register callback to run before every check when check is running"
  else
    .ok { r with before_everies := r.before_everies ++ [f] }

/-- `Register.__enter__`: runs every before-every hook; returns the names run. -/
def Register.enter (r : Register) : List String := r.before_everies

/-- `Register.__exit__`: on an exception it returns immediately (running
nothing and keeping `_after_checks`); otherwise it pops and runs every
after-check hook (LIFO, via `list.pop()`) and then the after-every hooks.
Returns the updated register and the hooks run, in order. -/
def Register.exit (r : Register) (excRaised : Bool) : Register × List String :=
  if excRaised then (r, [])
  else ({ r with after_checks := [] }, r.after_checks.reverse ++ r.after_everies)

/-- One check execution as the register sees it (`with internal.register`
around the check function, `runner.py` line 113): the after-check hooks the
check function registers, and whether the body exits with an exception. -/
structure RegisterExec where
  registersAfterCheck : List String
  raises : Bool
deriving Repr, DecidableEq

/-- Drive one check execution through the register: `__enter__`, the check
body registering its after-check hooks, then `__exit__` with the body's
exception status. Returns the register afterwards and every hook name that
ran during this execution. -/
def runWithRegister (r : Register) (e : RegisterExec) : Register × List String :=
  let pre := r.enter
  let r1 := { r with after_checks := r.after_checks ++ e.registersAfterCheck }
  let (r2, post) := r1.exit e.raises
  (r2, pre ++ post)

/-! ### `run_check` cross-process attribute transfer (`runner.py` lines 261-311) -/

/-- `pickle.dumps(value)` succeeds (Python `None` always pickles). -/
def pickleOk : Option PyObj → Bool
  | none => true
  | some v => v.picklable

/-- `run_check._store_attributes` (`runner.py` lines 280-292): under the
`spawn` start method, snapshot the `CROSS_PROCESS_ATTRIBUTES` values and
replace each value whose pickling fails by `None`; under any other start
method, store nothing. -/
def store_attributes (start_method : String) (vals : List (Option PyObj)) :
    Option (List (Option PyObj)) :=
  if start_method ≠ "spawn" then none
  else some (vals.map (fun v => if pickleOk v then v else none))

/-- A `run_check` job as constructed by `run_check.__init__` (`runner.py`
lines 274-278): the check name, the dependency state stored as-is, and the
stored cross-process attribute snapshot. -/
structure RunCheckJob where
  check_name : String
  state : Option PyObj
  attribute_values : Option (List (Option PyObj))
deriving Repr, DecidableEq

/-- `run_check.__init__`. -/
def mkRunCheck (start_method : String) (attrs : List (Option PyObj))
    (check_name : String) (state : Option PyObj := none) : RunCheckJob :=
  { check_name := check_name, state := state,
    attribute_values := store_attributes start_method attrs }

/-! ### `regex.decimal` (`regex.py` lines 11-16) -/

/-- The pattern string built by `regex.decimal`:
`(?<![\d\-])` (for non-negative numbers) + `re.escape(str(number))` +
`(?!(\.?\d))`. -/
def decimal (number : Int) : String :=
  (if 0 ≤ number then "(?<![\\d\\-])" else "") ++ toString number ++ "(?!(\\.?\\d))"

/-- The literal `str(number)` occurs in `s` at position `i`. -/
def literalAt (pat : List Char) (s : List Char) (i : Nat) : Bool :=
  (s.drop i).take pat.length = pat

/-- Semantics of the negative lookbehind `(?<![\d\-])`: fails exactly when
the previous character is a digit or `-`. -/
def lookbehindOk (s : List Char) (i : Nat) : Bool :=
  match i with
  | 0 => true
  | j + 1 =>
    match s.get? j with
    | some ch => !(ch.isDigit || ch = '-')
    | none => true

/-- Semantics of the negative lookahead `(?!(\.?\d))` at position `j`: fails
exactly when the next character is a digit, or is `.` followed by a digit. -/
def lookaheadOk (s : List Char) (j : Nat) : Bool :=
  match s.get? j with
  | none => true
  | some ch =>
    if ch.isDigit then false
    else if ch = '.' then
      match s.get? (j + 1) with
      | some ch2 => !ch2.isDigit
      | none => true
    else true

/-- Semantics of Python `re` matching the pattern `decimal number` at
position `i` of `s`: the literal digits occur there, the lookbehind is
applied only for non-negative numbers (as in `regex.py` line 15), and the
lookahead applies on the append side. -/
def decimalMatchAt (number : Int) (s : List Char) (i : Nat) : Bool :=
  (if 0 ≤ number then lookbehindOk s i else true)
    && literalAt (toString number).toList s i
    && lookaheadOk s (i + (toString number).toList.length)

/-- Semantics of `re.search` with the pattern `decimal number`: some
position of `s` matches. -/
def decimalSearch (number : Int) (s : String) : Bool :=
  (List.range (s.toList.length + 1)).any (decimalMatchAt number s.toList)

/-! ### The scheduler (`CheckRunner`, `runner.py` lines 138-258) -/

/-- The loaded checks definition: the decorated check functions in
declaration order (`_check_names` / `self.check_names`). -/
structure ChecksFile where
  checks : List Check
deriving Repr, DecidableEq

/-- `self.check_names`: declaration order of the checks. -/
def check_names (cf : ChecksFile) : List String := cf.checks.map (·.name)

/-- Look a check up by name (unique under the registry invariant). -/
def findCheck (cf : ChecksFile) (n : String) : Option Check :=
  cf.checks.find? (fun c => c.name = n)

/-- `self.dependency_graph` (`runner.py` lines 246-249): maps a dependency
key (a check name or the `None` sentinel) to the checks that declare it as
their dependency; a missing key yields the empty set (`defaultdict(set)`). -/
def dependency_graph (cf : ChecksFile) (dep : Option String) : List String :=
  (cf.checks.filter (fun c => c.dependency = dep)).map (·.name)

/-- `CheckRunner._create_inverse_dependency_graph` (`runner.py` lines
207-213): from a check name to its dependency key; `none` when the name is
not a check (not a key of the inverse graph). -/
def inverse_dependency_graph (cf : ChecksFile) (n : String) : Option (Option String) :=
  (findCheck cf n).map (·.dependency)

/-- Fuel-bounded walk up the dependency chain of one check: the check and
all of its (transitive) dependencies. -/
def ancestorChain (cf : ChecksFile) : Nat → String → List String
  | 0, _ => []
  | fuel + 1, n =>
    n :: (match inverse_dependency_graph cf n with
          | some (some d) => ancestorChain cf fuel d
          | _ => [])

/-- `CheckRunner.dependencies_of` (`runner.py` lines 193-204): the set of
each target together with all of its transitive dependencies; raises
`Error("Unknown check: ...")` for a target that is not in the inverse
graph. -/
def dependencies_of (cf : ChecksFile) (targets : List String) :
    Except String (List String) :=
  if targets.all (fun t => t ∈ check_names cf) then
    .ok (targets.flatMap (ancestorChain cf cf.checks.length))
  else
    .error "Unknown check"

/-- `CheckRunner.build_subgraph` (`runner.py` lines 180-190): keep an edge
`dep -> child` of the dependency graph only when `dep` is the `None`
sentinel or a member of the target closure, and `child` is a member of the
target closure. -/
def build_subgraph (cf : ChecksFile) (closure : List String) :
    Option String → List String
  | none => (dependency_graph cf none).filter (fun n => n ∈ closure)
  | some d =>
    if d ∈ closure then (dependency_graph cf (some d)).filter (fun n => n ∈ closure)
    else []

/-- Scheduler state during `CheckRunner.run`'s executor loop: the in-flight
jobs (`not_done`, each carrying its dependency state), the insertion-ordered
`results` dict, the `not_passed` list, and a trace of the check functions
invoked so far, each tagged with whether its declared dependency had a
`passed` result at the moment of invocation. -/
structure RunState where
  notDone : List (String × Option PyObj)
  results : List (String × Option CheckResult)
  notPassed : List String
  invoked : List (String × Bool)
deriving Repr, DecidableEq

/-- Lookup in an insertion-ordered dict modelled as an association list. -/
def dictLookup {α : Type} (l : List (String × α)) (k : String) : Option α :=
  match l with
  | [] => none
  | (k', v) :: rest => if k' = k then some v else dictLookup rest k

/-- `d[k] = v` on an insertion-ordered dict: overwrite in place, append when
the key is new (Python dict semantics). -/
def dictUpdate {α : Type} (l : List (String × Option α)) (k : String) (v : α) :
    List (String × Option α) :=
  match l with
  | [] => [(k, some v)]
  | (k', v') :: rest =>
    if k' = k then (k', some v) :: rest else (k', v') :: dictUpdate rest k v

/-- Executing the submitted `run_check` job for `name` inside a worker:
the worker calls the check's wrapper (`run_check.__call__`,
`runner.py` lines 314-324). -/
def execJob (cf : ChecksFile) (name : String) : CheckResult × Option PyObj :=
  match findCheck cf name with
  | some c => wrapper c
  | none => ({ name := name }, none)

/-- Ghost instrumentation: at the moment a job is picked to complete, does
its declared dependency already have a result with outcome `passed`? -/
def depPassedNow (cf : ChecksFile) (results : List (String × Option CheckResult))
    (name : String) : Bool :=
  match findCheck cf name with
  | none => false
  | some c =>
    match c.dependency with
    | none => true
    | some d =>
      match dictLookup results d with
      | some (some r) => r.passed = some true
      | _ => false

/-- Pick the job that `futures.wait` reports as completed next: the schedule
entry `k` selects an arbitrary in-flight job (any index is reachable via
`k % length`). -/
def pickJob {α : Type} : List α → Nat → Option (α × List α)
  | [], _ => none
  | a :: rest, 0 => some (a, rest)
  | a :: rest, k + 1 =>
    match pickJob rest k with
    | some (j, rest') => some (j, a :: rest')
    | none => some (a, rest)

/-- `pickle.dumps` succeeds on the dependency state handed to
`executor.submit(run_check(child_name, spec, state))`. -/
def statePicklable : Option PyObj → Bool
  | none => true
  | some v => v.picklable

/-- One iteration of the executor loop (`runner.py` lines 162-172): one
in-flight job completes; its result is stored in `results`; a `passed`
result submits every child in the active graph with the returned state
(serializing the state across the process boundary — an unpicklable state
makes the submitted future raise, which `future.result()` re-raises,
aborting the run); any other result is appended to `not_passed`. -/
def stepRun (cf : ChecksFile) (g : Option String → List String) (k : Nat)
    (st : RunState) : Except String RunState :=
  match pickJob st.notDone k with
  | none => .ok st
  | some ((name, _depState), rest) =>
    let rs := execJob cf name
    let results1 := dictUpdate st.results rs.1.name rs.1
    let invoked1 := st.invoked ++ [(name, depPassedNow cf st.results name)]
    if rs.1.passed = some true then
      if g rs.1.name = [] then
        .ok { notDone := rest, results := results1,
              notPassed := st.notPassed, invoked := invoked1 }
      else if statePicklable rs.2 then
        .ok { notDone := rest ++ (g rs.1.name).map (fun c => (c, rs.2)),
              results := results1, notPassed := st.notPassed, invoked := invoked1 }
      else
        .error "PicklingError"
    else
      .ok { notDone := rest, results := results1,
            notPassed := st.notPassed ++ [rs.1.name], invoked := invoked1 }

/-- The `while not_done:` loop, driven by the completion schedule. The model
runs out of schedule entries only on schedules too short to drain the pool;
a successful (`.ok`) outcome always has an empty `not_done` set, matching
the loop's exit condition. -/
def runLoop (cf : ChecksFile) (g : Option String → List String) :
    List Nat → RunState → Except String RunState
  | [], st => if st.notDone = [] then .ok st else .error "ScheduleExhausted"
  | k :: ks, st =>
    if st.notDone = [] then .ok st
    else
      match stepRun cf g k st with
      | .ok st' => runLoop cf g ks st'
      | .error e => .error e

/-- The skip `CheckResult` built by `CheckRunner._skip_children`
(`runner.py` lines 220-223): `passed=None`, the description from
`self.check_descriptions` (the raw docstring), the failing parent as
`dependency`, and the fixed rationale. -/
def skipResult (cf : ChecksFile) (parent name : String) : CheckResult :=
  { name := name,
    description := (findCheck cf name).bind (·.doc),
    passed := none,
    dependency := some parent,
    cause := some { rationale := "can\x27t check until a frown turns upside down" } }

/-- The `for name in self.dependency_graph[check_name]:` loop of
`_skip_children`, with `recurse` standing for the recursive call
`self._skip_children(name, results)`: mark each child whose entry is still
`None` as skipped and recurse into it. -/
def skipChildList (cf : ChecksFile) (recurse : String → List (String × Option CheckResult) →
    List (String × Option CheckResult)) (parent : String) :
    List String → List (String × Option CheckResult) → List (String × Option CheckResult)
  | [], results => results
  | n :: rest, results =>
    match dictLookup results n with
    | some none =>
      skipChildList cf recurse parent rest
        (recurse n (dictUpdate results n (skipResult cf parent n)))
    | _ => skipChildList cf recurse parent rest results

/-- `CheckRunner._skip_children` (`runner.py` lines 216-224): iterate over
the children of `check_name` in the full dependency graph; mark each child
whose entry is still `None` as skipped and recurse into it. The fuel bounds
the recursion depth (the Python recursion terminates because the graph is
acyclic; any fuel of at least the number of checks is enough). -/
def skip_children (cf : ChecksFile) : Nat → String → List (String × Option CheckResult) →
    List (String × Option CheckResult)
  | 0, _, results => results
  | fuel + 1, check_name, results =>
    skipChildList cf (fun n res => skip_children cf fuel n res) check_name
      (dependency_graph cf (some check_name)) results

/-- The post-loop skip pass (`runner.py` lines 174-175):
`for name in not_passed: self._skip_children(name, results)`. -/
def skipPass (cf : ChecksFile) (notPassed : List String)
    (results : List (String × Option CheckResult)) : List (String × Option CheckResult) :=
  notPassed.foldl (fun res n => skip_children cf cf.checks.length n res) results

/-- `graph = self.build_subgraph(targets) if targets else self.dependency_graph`
(`runner.py` line 148): a `None` or empty target list is falsy and selects
the full dependency graph; a non-empty one selects the induced subgraph
(after validating the targets, which may raise `Unknown check`). -/
def pickGraph (cf : ChecksFile) (targets : Option (List String)) :
    Except String (Option String → List String) :=
  match targets with
  | some ts =>
    if ts = [] then .ok (dependency_graph cf)
    else (dependencies_of cf ts).map (build_subgraph cf)
  | none => .ok (dependency_graph cf)

/-- The scheduler state entering the executor loop (`runner.py` lines
150-160): `results` maps every declared check name to `None`, and the
checks whose dependency key is `None` in the active graph are submitted. -/
def initState (cf : ChecksFile) (g : Option String → List String) : RunState :=
  { notDone := (g none).map (fun n => (n, none)),
    results := (check_names cf).map (fun n => (n, none)),
    notPassed := [],
    invoked := [] }

/-- `CheckRunner.run` up to the end of the executor loop, for a given
completion schedule. -/
def CheckRunner.runState (cf : ChecksFile) (targets : Option (List String))
    (choices : List Nat) : Except String RunState := do
  let g ← pickGraph cf targets
  runLoop cf g choices (initState cf g)

/-- The results dict after the skip pass. -/
def finalResults (cf : ChecksFile) (st : RunState) : List (String × Option CheckResult) :=
  skipPass cf st.notPassed st.results

/-- `CheckRunner.run` (`runner.py` lines 143-177): executor loop, skip pass,
then `list(filter(None, results.values()))`. -/
def CheckRunner.run (cf : ChecksFile) (targets : Option (List String))
    (choices : List Nat) : Except String (List CheckResult) :=
  (CheckRunner.runState cf targets choices).map
    (fun st => (finalResults cf st).filterMap Prod.snd)

/-- Invariant guaranteed by the registry (`__enter__` plus the `@check`
decorator mechanics): check names are unique, and a declared dependency is a
function object that was decorated earlier in the checks file, so it resolves
to an earlier-declared check. -/
def WellFormed (cf : ChecksFile) : Prop :=
  (check_names cf).Nodup ∧
  ∀ i : Fin cf.checks.length, ∀ d : String,
    (cf.checks.get i).dependency = some d →
    ∃ j : Fin cf.checks.length, j.val < i.val ∧ (cf.checks.get j).name = d

instance (cf : ChecksFile) : Decidable (WellFormed cf) := by
  unfold WellFormed; infer_instance

/-- Transitive-dependent relation derived from the declared dependencies:
`DepChain cf a b` says check `b` transitively depends on check `a`. -/
inductive DepChain (cf : ChecksFile) : String → String → Prop where
  | direct {a : String} {c : Check} : c ∈ cf.checks → c.dependency = some a →
      DepChain cf a c.name
  | trans {a b c : String} : DepChain cf a b → DepChain cf b c → DepChain cf a c

/-- Check `n` declares `d` as its dependency. -/
def IsDepOf (cf : ChecksFile) (n d : String) : Prop :=
  ∃ c ∈ cf.checks, c.name = n ∧ c.dependency = some d

/-- Declaration position of a check name. -/
def posOf (cf : ChecksFile) (n : String) : Nat := (check_names cf).indexOf n

/-- The state after the executor loop, defaulting to an empty state when the
run aborted (used to name concrete runs in closed statements). -/
def runStateD (cf : ChecksFile) (targets : Option (List String)) (choices : List Nat) :
    RunState :=
  match CheckRunner.runState cf targets choices with
  | .ok st => st
  | .error _ => { notDone := [], results := [], notPassed := [], invoked := [] }

/-- The output list of a run, defaulting to `[]` when the run aborted. -/
def runOutD (cf : ChecksFile) (targets : Option (List String)) (choices : List Nat) :
    List CheckResult :=
  match CheckRunner.run cf targets choices with
  | .ok out => out
  | .error _ => []

/-! ### Concrete check sets used in closed statements -/

/-- A check whose function overruns a 1-second timeout. -/
def slowCheck : Check := { name := "sleepy", timeout := 1, behavior := .overrun }

/-- A check with log cap 0 that emits one log line. -/
def cappedCheck : Check := { name := "chatty", max_log_lines := 0, logLines := ["hello"] }

/-- A check with log cap 1 that emits two log lines. -/
def cappedCheck2 : Check := { name := "chatty2", max_log_lines := 1, logLines := ["first", "second"] }

/-- A check whose function raises a `ValueError`. -/
def erroringCheck : Check :=
  { name := "boom", behavior := .raised (.other "ValueError" "bad value" ["tb line"] []) }

/-- A check whose function raises `SystemExit(3)`. -/
def exitingCheck : Check := { name := "exiter", behavior := .raised (.systemExit 3 ["tb exit"]) }

/-- Checks file `a <- b <- c` where `a` fails; used for targeted runs. -/
def cfChain : ChecksFile :=
  { checks := [{ name := "a", behavior := .raised (.failure { rationale := "nope" }) },
               { name := "b", dependency := some "a" },
               { name := "c", dependency := some "b" }] }

/-- An object whose pickling fails. -/
def unpicklableObj : PyObj := { tag := "generator", picklable := false }

/-- Checks file where `a` passes returning an unpicklable state and `b`
depends on `a`. -/
def cfUnpicklable : ChecksFile :=
  { checks := [{ name := "a", behavior := .ret (some unpicklableObj) },
               { name := "b", dependency := some "a" }] }

/-- Checks file `a <- b <- c, c <- d` where `a` passes and `b` errors. -/
def cfErrorChain : ChecksFile :=
  { checks := [{ name := "a" },
               { name := "b", dependency := some "a",
                 behavior := .raised (.other "ValueError" "boom" ["tb"] []) },
               { name := "c", dependency := some "b" },
               { name := "d", dependency := some "c" }] }

/-- Two independent passing checks. -/
def cfTwo : ChecksFile := { checks := [{ name := "a" }, { name := "b" }] }

/-- A register execution that registers an after-check hook and then fails. -/
def leakyExec : RegisterExec := { registersAfterCheck := ["leak"], raises := true }

/-- A register execution that registers nothing and passes. -/
def cleanExec : RegisterExec := { registersAfterCheck := [], raises := false }

/-- A register execution that registers one after-check hook and passes. -/
def registeringExec : RegisterExec := { registersAfterCheck := ["mine"], raises := false }

/-- A register as it looks in a fresh worker process after the checks module
registered one before-every and one after-every hook at load time. -/
def loadedRegister : Register :=
  { before_everies := ["pre"], after_everies := ["post"], after_checks := [] }

/-! ### Predicates used to state the scheduler invariants -/

/-- Every edge of the active graph `g` joins a declared check to its
declared dependency key. Holds for the full dependency graph and for every
induced subgraph. -/
def GraphHyp (cf : ChecksFile) (g : Option String → List String) : Prop :=
  ∀ d n, n ∈ g d → ∃ c ∈ cf.checks, c.name = n ∧ c.dependency = d

/-- The results dict is keyed by the declared check names in declaration
order, and every stored result is named after its key. -/
def ResultsWF (cf : ChecksFile) (res : List (String × Option CheckResult)) : Prop :=
  res.map Prod.fst = check_names cf ∧
  ∀ p ∈ res, ∀ r : CheckResult, p.2 = some r → r.name = p.1

/-- The check named `n` is declared, and its declared dependency — if it has
one — already holds a result with outcome `passed` in `results`. -/
def JobOk (cf : ChecksFile) (results : List (String × Option CheckResult)) (n : String) :
    Prop :=
  ∃ c ∈ cf.checks, c.name = n ∧
    (c.dependency = none ∨ ∃ d rd, c.dependency = some d ∧
      dictLookup results d = some (some rd) ∧ rd.passed = some true)

/-- Invariant of the executor loop of `CheckRunner.run`. -/
def LoopInv (cf : ChecksFile) (st : RunState) : Prop :=
  ResultsWF cf st.results ∧
  (∀ k r, dictLookup st.results k = some (some r) →
    r = (execJob cf k).1 ∧ k ∈ st.invoked.map Prod.fst) ∧
  (∀ p ∈ st.notDone, JobOk cf st.results p.1) ∧
  (∀ q ∈ st.invoked, JobOk cf st.results q.1) ∧
  (∀ q ∈ st.invoked, q.2 = true) ∧
  (∀ n ∈ st.notPassed, dictLookup st.results n = some (some ((execJob cf n).1)) ∧
    ¬ ((execJob cf n).1.passed = some true)) ∧
  (∀ k r, dictLookup st.results k = some (some r) →
    r.passed = some true ∨ k ∈ st.notPassed)

/-- `n` holds the skip record `_skip_children` writes for it: skipped below
its own declared dependency. -/
def MarkedAsSkip (cf : ChecksFile) (res : List (String × Option CheckResult))
    (n : String) : Prop :=
  ∃ d, IsDepOf cf n d ∧ dictLookup res n = some (some (skipResult cf d n))

/-- Every transitive dependent of `f` is still unmarked (`None`). -/
def ConeAllNone (cf : ChecksFile) (res : List (String × Option CheckResult))
    (f : String) : Prop :=
  ∀ n, DepChain cf f n → dictLookup res n = some none

/-- Every transitive dependent of `f` already holds its skip record. -/
def ConeAllMarked (cf : ChecksFile) (res : List (String × Option CheckResult))
    (f : String) : Prop :=
  ∀ n, DepChain cf f n → MarkedAsSkip cf res n

/-! ## Basic lemmas about the wrapper -/

theorem wrapper_eq (c : Check) : wrapper c = finallyBlock c (afterHandlers c).1 := rfl

theorem wrapper_log (c : Check) :
    (wrapper c).1.log = truncatedLog c.max_log_lines c.logLines := rfl

theorem afterHandlers_eq_ret (c : Check) (s : Option PyObj) (h : c.behavior = .ret s) :
    afterHandlers c = (({ CheckResult.from_check c with passed := some true }, s), none) := by
  simp [afterHandlers, tryBody, h]

theorem afterHandlers_eq_failure (c : Check) (p : FailurePayload)
    (h : tryBody c = .inr (.failure p)) :
    afterHandlers c = ((handleFailure (CheckResult.from_check c) p, none), none) := by
  simp [afterHandlers, h, matchesFailure]

theorem afterHandlers_eq_err (c : Check) (e : PyExn) (h : tryBody c = .inr e)
    (hf : matchesFailure e = false) :
    afterHandlers c = ((handleBaseException (CheckResult.from_check c) e, none), none) := by
  simp [afterHandlers, h, hf, matchesBaseException]

theorem wrapper_name (c : Check) : (wrapper c).1.name = c.name := by
  rw [wrapper_eq]
  rcases hb : c.behavior with s | e | _
  · rw [afterHandlers_eq_ret c s hb]; rfl
  · by_cases hf : matchesFailure e = true
    · rcases e with p | _ | _ | _ <;> simp [matchesFailure] at hf
      rw [afterHandlers_eq_failure c p (by simp [tryBody, hb])]
      rfl
    · rw [afterHandlers_eq_err c e (by simp [tryBody, hb]) (by simpa using hf)]
      rfl
  · rw [afterHandlers_eq_failure c (Timeout c.timeout) (by simp [tryBody, hb])]
    rfl

/-- Claim C5: a check whose function runs longer than its declared timeout is
classified as `failed` (not `errored`), through the `Timeout` specialization
of the expected-failure class, and the result cause's rationale states the
configured timeout duration. -/
theorem c5_timeout_is_failed (c : Check) (h : c.behavior = .overrun) :
    (wrapper c).1.passed = some false ∧
    (wrapper c).1.cause =
      some { rationale := (Timeout c.timeout).rationale, help := none, error := none } ∧
    (Timeout c.timeout).rationale
      = "check timed out after " ++ toString c.timeout ++ " seconds" := by
  have ht : tryBody c = .inr (.failure (Timeout c.timeout)) := by simp [tryBody, h]
  rw [wrapper_eq, afterHandlers_eq_failure c (Timeout c.timeout) ht]
  exact ⟨rfl, rfl, rfl⟩

/-- Witness for C5 at a concrete check sleeping past a 1-second timeout. -/
theorem c5_witness :
    (wrapper slowCheck).1.passed = some false ∧
    (wrapper slowCheck).1.cause =
      some { rationale := (Timeout slowCheck.timeout).rationale, help := none, error := none } ∧
    (Timeout slowCheck.timeout).rationale
      = "check timed out after " ++ toString slowCheck.timeout ++ " seconds" :=
  c5_timeout_is_failed slowCheck rfl

/-- Claim C6 counterexample: with log cap 0 and a one-line buffer the
result's log is the marker followed by the whole buffer (Python's
`_log[-0:]` is the whole list), not "exactly the last cap lines preceded by
a single truncation marker", which would be `["..."]`. -/
theorem c6_counterexample :
    cappedCheck.max_log_lines < cappedCheck.logLines.length ∧
    (wrapper cappedCheck).1.log = ["...", "hello"] ∧
    "..." :: cappedCheck.logLines.drop
      (cappedCheck.logLines.length - cappedCheck.max_log_lines) = ["..."] ∧
    (wrapper cappedCheck).1.log ≠ ["..."] := by
  refine ⟨by decide, rfl, rfl, by decide⟩

/-- Claim C6 amended: for a positive log cap, a buffer of more than cap
lines yields the last cap lines preceded by the single truncation marker,
and a buffer of at most cap lines is returned unchanged. -/
theorem c6_amended (c : Check) (hcap : 1 ≤ c.max_log_lines) :
    (c.logLines.length ≤ c.max_log_lines → (wrapper c).1.log = c.logLines) ∧
    (c.max_log_lines < c.logLines.length →
      (wrapper c).1.log
        = "..." :: c.logLines.drop (c.logLines.length - c.max_log_lines) ∧
      (c.logLines.drop (c.logLines.length - c.max_log_lines)).length
        = c.max_log_lines) := by
  constructor
  · intro hle
    rw [wrapper_log, truncatedLog, if_pos hle]
  · intro hlt
    refine ⟨?_, ?_⟩
    · rw [wrapper_log, truncatedLog, if_neg (by omega), pyTailSlice, if_neg (by omega)]
    · rw [List.length_drop]; omega

/-- Witness for the amended C6 at cap 1 and a two-line buffer. -/
theorem c6_witness :
    (cappedCheck2.logLines.length ≤ cappedCheck2.max_log_lines →
      (wrapper cappedCheck2).1.log = cappedCheck2.logLines) ∧
    (cappedCheck2.max_log_lines < cappedCheck2.logLines.length →
      (wrapper cappedCheck2).1.log
        = "..." :: cappedCheck2.logLines.drop
            (cappedCheck2.logLines.length - cappedCheck2.max_log_lines) ∧
      (cappedCheck2.logLines.drop
          (cappedCheck2.logLines.length - cappedCheck2.max_log_lines)).length
        = cappedCheck2.max_log_lines) :=
  c6_amended cappedCheck2 (by decide)

/-- Claim C9: a skipped check and an errored check carry the same outcome
value `passed = None`; they differ only in the cause payload — the errored
cause holds an error entry with type, value and traceback, the skipped cause
holds none. -/
theorem c9_skipped_errored_same_outcome (c : Check) (e : PyExn)
    (hb : c.behavior = .raised e) (hf : matchesFailure e = false)
    (cf : ChecksFile) (parent n : String) :
    (wrapper c).1.passed = none ∧
    (skipResult cf parent n).passed = none ∧
    (wrapper c).1.cause
      = some { rationale := "check50 ran into an error while running checks!",
               help := none,
               error := some { type := exnType e, value := exnValue e,
                               traceback := exnTraceback e, data := exnPayloadData e } } ∧
    (skipResult cf parent n).cause
      = some { rationale := "can\x27t check until a frown turns upside down",
               help := none, error := none } := by
  have ht : tryBody c = .inr e := by simp [tryBody, hb]
  rw [wrapper_eq, afterHandlers_eq_err c e ht hf]
  exact ⟨rfl, rfl, rfl, rfl⟩

/-- Witness for C9 at a check raising `ValueError` and the skip result for
check `b` below failing parent `a` in `cfChain`. -/
theorem c9_witness :
    (wrapper erroringCheck).1.passed = none ∧
    (skipResult cfChain "a" "b").passed = none ∧
    (wrapper erroringCheck).1.cause
      = some { rationale := "check50 ran into an error while running checks!",
               help := none,
               error := some { type := "ValueError", value := "bad value",
                               traceback := ["tb line"], data := [] } } ∧
    (skipResult cfChain "a" "b").cause
      = some { rationale := "can\x27t check until a frown turns upside down",
               help := none, error := none } :=
  c9_skipped_errored_same_outcome erroringCheck _ rfl rfl cfChain "a" "b"

/-- Claim C10: the wrapper always returns a `(CheckResult, state)` pair
normally — no exception escapes (nothing is left propagating after the
handlers, and the `return` in the `finally` block completes the call) —
classifying `Failure` as `passed = False`, every other exception (including
`BaseException` subclasses such as `SystemExit` and `KeyboardInterrupt`) as
`passed = None` with diagnostic cause, and a normal return as
`passed = True`. -/
theorem c10_wrapper_never_raises (c : Check) :
    wrapperCall c = .normal (wrapper c) ∧
    (afterHandlers c).2 = none ∧
    (∀ p, c.behavior = .raised (.failure p) → (wrapper c).1.passed = some false) ∧
    (∀ e, c.behavior = .raised e → matchesFailure e = false →
      (wrapper c).1.passed = none ∧
      (wrapper c).1.cause
        = some { rationale := "check50 ran into an error while running checks!",
                 help := none,
                 error := some { type := exnType e, value := exnValue e,
                                 traceback := exnTraceback e, data := exnPayloadData e } }) ∧
    (∀ s, c.behavior = .ret s →
      (wrapper c).1.passed = some true ∧ (wrapper c).2 = s) := by
  refine ⟨rfl, ?_, ?_, ?_, ?_⟩
  · rcases hb : c.behavior with s | e | _
    · rw [afterHandlers_eq_ret c s hb]
    · by_cases hf : matchesFailure e = true
      · rcases e with p | _ | _ | _ <;> simp [matchesFailure] at hf
        rw [afterHandlers_eq_failure c p (by simp [tryBody, hb])]
      · rw [afterHandlers_eq_err c e (by simp [tryBody, hb]) (by simpa using hf)]
    · rw [afterHandlers_eq_failure c (Timeout c.timeout) (by simp [tryBody, hb])]
  · intro p hb
    rw [wrapper_eq, afterHandlers_eq_failure c p (by simp [tryBody, hb])]
    rfl
  · intro e hb hf
    rw [wrapper_eq, afterHandlers_eq_err c e (by simp [tryBody, hb]) hf]
    exact ⟨rfl, rfl⟩
  · intro s hb
    rw [wrapper_eq, afterHandlers_eq_ret c s hb]
    exact ⟨rfl, rfl⟩

/-- Witness for C10 at a check raising `SystemExit(3)`. -/
theorem c10_witness :
    wrapperCall exitingCheck = .normal (wrapper exitingCheck) ∧
    (afterHandlers exitingCheck).2 = none ∧
    (wrapper exitingCheck).1.passed = none ∧
    (wrapper exitingCheck).1.cause
      = some { rationale := "check50 ran into an error while running checks!",
               help := none,
               error := some { type := "SystemExit", value := "3",
                               traceback := ["tb exit"], data := [] } } := by
  have h := c10_wrapper_never_raises exitingCheck
  have h4 := h.2.2.2.1 (.systemExit 3 ["tb exit"]) rfl rfl
  exact ⟨h.1, h.2.1, h4.1, h4.2⟩

/-- Claim C7 amended: for a non-negative literal the pattern built by
`regex.decimal` never matches immediately after another digit, and for every
literal it never matches immediately before another digit or before a
decimal point followed by a digit; `decimal 42` matches in `"42"` but
nowhere in `"142"` or `"420"`. For a negative literal the lookbehind is
omitted (`regex.py` line 15), so matching reduces to the literal plus the
lookahead and the no-preceding-digit guarantee does not apply. -/
theorem c7_decimal_anchored :
    (∀ (number : Int), 0 ≤ number → ∀ (s : List Char) (i : Nat) (ch : Char),
      s.get? i = some ch → ch.isDigit = true → decimalMatchAt number s (i + 1) = false) ∧
    (∀ (number : Int) (s : List Char) (i : Nat) (ch : Char),
      s.get? (i + (toString number).length) = some ch → ch.isDigit = true →
      decimalMatchAt number s i = false) ∧
    (∀ (number : Int) (s : List Char) (i : Nat) (ch : Char),
      s.get? (i + (toString number).length) = some '.' →
      s.get? (i + (toString number).length + 1) = some ch → ch.isDigit = true →
      decimalMatchAt number s i = false) ∧
    decimalSearch 42 "42" = true ∧
    decimalSearch 42 "142" = false ∧
    decimalSearch 42 "420" = false ∧
    (∀ (number : Int), number < 0 → ∀ (s : List Char) (i : Nat),
      decimalMatchAt number s i
        = (literalAt (toString number).toList s i
            && lookaheadOk s (i + (toString number).toList.length))) := by
  refine ⟨?_, ?_, ?_, by decide, by decide, by decide, ?_⟩
  · intro n hn s i ch hget hdig
    rw [List.get?_eq_getElem?] at hget
    have hlb : lookbehindOk s (i + 1) = false := by simp [lookbehindOk, hget, hdig]
    simp [decimalMatchAt, hn, hlb]
  · intro n s i ch hget hdig
    rw [List.get?_eq_getElem?] at hget
    have hla : lookaheadOk s (i + (toString n).length) = false := by
      simp [lookaheadOk, hget, hdig]
    simp [decimalMatchAt, hla]
  · intro n s i ch hdot hget hdig
    rw [List.get?_eq_getElem?] at hdot hget
    have hdd : ('.' : Char).isDigit = false := by decide
    have hla : lookaheadOk s (i + (toString n).length) = false := by
      simp [lookaheadOk, hdot, hget, hdig, hdd]
    simp [decimalMatchAt, hla]
  · intro n hn s i
    have h2 : ¬ (0 : Int) ≤ n := by omega
    simp [decimalMatchAt, h2]

/-- Witness for the amended C7: `42` does not match inside `142`, `420` or
before `.5` in `42.5`, and matching the negative literal `-5` reduces to the
literal plus the lookahead. -/
theorem c7_witness :
    decimalMatchAt 42 "142".toList 1 = false ∧
    decimalMatchAt 42 "420".toList 0 = false ∧
    decimalMatchAt 42 "42.5".toList 0 = false ∧
    decimalMatchAt (-5) "3-5".toList 1
      = (literalAt (toString (-5 : Int)).toList "3-5".toList 1
          && lookaheadOk "3-5".toList (1 + (toString (-5 : Int)).toList.length)) := by
  have h := c7_decimal_anchored
  exact ⟨h.1 42 (by decide) "142".toList 0 '1' (by decide) (by decide),
         h.2.1 42 "420".toList 0 '0' (by decide) (by decide),
         h.2.2.1 42 "42.5".toList 0 '5' (by decide) (by decide) (by decide),
         h.2.2.2.2.2.2 (-5) (by decide) "3-5".toList 1⟩

/-- Claim C7 counterexample: for the negative literal -5 the pattern omits
the lookbehind (`regex.py` line 15), so it matches inside `"3-5"` at an
occurrence immediately preceded by the digit 3, refuting the claim for
every integer literal. -/
theorem c7_counterexample :
    Char.isDigit '3' = true ∧
    "3-5".toList.get? 0 = some '3' ∧
    decimalMatchAt (-5) "3-5".toList 1 = true ∧
    decimalSearch (-5) "3-5" = true := by
  decide

/-- Claim C4 counterexample: an after-check hook registered during a first
check that raises is not discarded (`Register.__exit__` returns early on an
exception), so it is still registered when the next check runs in the same
worker process and it executes during that second check. -/
theorem c4_counterexample :
    leakyExec.raises = true ∧
    cleanExec.registersAfterCheck = [] ∧
    (runWithRegister { before_everies := [], after_everies := [], after_checks := [] }
        leakyExec).1.after_checks = ["leak"] ∧
    (runWithRegister (runWithRegister
        { before_everies := [], after_everies := [], after_checks := [] } leakyExec).1
        cleanExec).2 = ["leak"] := by
  exact ⟨rfl, rfl, rfl, rfl⟩

/-- Claim C4 amended: hooks registered mid-check can only be after-check
hooks (`before_every` / `after_every` raise while a check is running), and
after a check that does not fail the after-check list is consumed, so no
hook registered during a non-failing check leaks into the next execution in
the same process; only a failing or errored check leaves its after-check
hooks registered for the next execution. -/
theorem c4_amended (r : Register) (e1 e2 : RegisterExec) (h1 : e1.raises = false) :
    (runWithRegister r e1).1.after_checks = [] ∧
    (runWithRegister r e1).1.before_everies = r.before_everies ∧
    (runWithRegister r e1).1.after_everies = r.after_everies ∧
    (∀ h ∈ (runWithRegister (runWithRegister r e1).1 e2).2,
      h ∈ r.before_everies ∨ h ∈ r.after_everies ∨ h ∈ e2.registersAfterCheck) ∧
    (∀ f, Register.after_every r true f
      = .error "cannot register callback to run after every check when check is running") ∧
    (∀ f, Register.before_every r true f
      = .error "cannot register callback to run before every check when check is running") := by
  refine ⟨?_, ?_, ?_, ?_, fun f => rfl, fun f => rfl⟩
  · simp [runWithRegister, Register.exit, h1]
  · simp [runWithRegister, Register.exit, h1]
  · simp [runWithRegister, Register.exit, h1]
  · intro h hmem
    rcases he2 : e2.raises with _ | _ <;>
      simp [runWithRegister, Register.exit, Register.enter, h1, he2] at hmem <;>
      tauto

/-- Witness for the amended C4: a passing check that registers one
after-check hook leaves nothing behind for the next execution. -/
theorem c4_witness :
    (runWithRegister loadedRegister registeringExec).1.after_checks = [] ∧
    (runWithRegister loadedRegister registeringExec).1.before_everies
      = loadedRegister.before_everies ∧
    (runWithRegister loadedRegister registeringExec).1.after_everies
      = loadedRegister.after_everies ∧
    (∀ h ∈ (runWithRegister (runWithRegister loadedRegister registeringExec).1 cleanExec).2,
      h ∈ loadedRegister.before_everies ∨ h ∈ loadedRegister.after_everies ∨
        h ∈ cleanExec.registersAfterCheck) ∧
    (∀ f, Register.after_every loadedRegister true f
      = .error "cannot register callback to run after every check when check is running") ∧
    (∀ f, Register.before_every loadedRegister true f
      = .error "cannot register callback to run before every check when check is running") :=
  c4_amended loadedRegister registeringExec cleanExec rfl

/-- Claim C3 counterexample: check `a` of `cfUnpicklable` passes returning an
unpicklable state and `b` depends on it; the run aborts with a pickling
error instead of executing `b` with an absent state. -/
theorem c3_counterexample :
    (execJob cfUnpicklable "a").1.passed = some true ∧
    (execJob cfUnpicklable "a").2 = some unpicklableObj ∧
    unpicklableObj.picklable = false ∧
    CheckRunner.run cfUnpicklable none [0, 0] = .error "PicklingError" := by
  exact ⟨rfl, rfl, rfl, rfl⟩

/-- Claim C3 amended: the best-effort "replace by None when pickling fails"
policy belongs to the cross-process attribute snapshot taken by
`run_check._store_attributes` under the spawn start method; the check's
returned state is stored on the job unchanged, and transferring an
unpicklable state to a dependent aborts the run instead of delivering an
absent state. -/
theorem c3_amended :
    (∀ vals, store_attributes "spawn" vals
      = some (vals.map (fun v => if pickleOk v then v else none))) ∧
    (∀ start_method attrs check_name s,
      (mkRunCheck start_method attrs check_name s).state = s) ∧
    statePicklable (some unpicklableObj) = false ∧
    (execJob cfUnpicklable "a").1.passed = some true ∧
    CheckRunner.run cfUnpicklable none [0, 0] = .error "PicklingError" := by
  refine ⟨?_, fun _ _ _ _ => rfl, rfl, rfl, rfl⟩
  intro vals
  simp [store_attributes]

/-- Claim C2 counterexample: in the target-filtered run of `cfChain` with
targets `["b"]`, the closure is `{b, a}` and check `c` is outside it; yet
when `a` fails, `c` appears in the output as skipped, because
`_skip_children` walks the full dependency graph. -/
theorem c2_counterexample :
    dependencies_of cfChain ["b"] = .ok ["b", "a"] ∧
    "c" ∉ (["b", "a"] : List String) ∧
    (CheckRunner.run cfChain (some ["b"]) [0]).map
        (fun out => out.map (fun r => (r.name, r.passed, r.dependency)))
      = .ok [("a", some false, none), ("b", none, some "a"), ("c", none, some "b")] := by
  exact ⟨rfl, by decide, rfl⟩

/-! ## Dictionary lemmas -/

theorem dictLookup_update_self {α : Type} (l : List (String × Option α)) (k : String)
    (v : α) : dictLookup (dictUpdate l k v) k = some (some v) := by
  induction l with
  | nil => simp [dictUpdate, dictLookup]
  | cons p rest ih =>
    obtain ⟨k', v'⟩ := p
    by_cases h : k' = k
    · simp [dictUpdate, dictLookup, h]
    · simp [dictUpdate, dictLookup, h, ih]

theorem dictLookup_update_ne {α : Type} (l : List (String × Option α)) (k k' : String)
    (v : α) (h : k' ≠ k) : dictLookup (dictUpdate l k v) k' = dictLookup l k' := by
  have hne : ¬ k = k' := fun he => h he.symm
  induction l with
  | nil => simp [dictUpdate, dictLookup, hne]
  | cons p rest ih =>
    obtain ⟨k'', v''⟩ := p
    by_cases h2 : k'' = k
    · subst h2
      simp [dictUpdate, dictLookup, hne]
    · by_cases h3 : k'' = k'
      · simp [dictUpdate, dictLookup, h2, h3, h]
      · simp [dictUpdate, dictLookup, h2, h3, ih]

theorem dictUpdate_keys_of_mem {α : Type} (l : List (String × Option α)) (k : String)
    (v : α) (h : k ∈ l.map Prod.fst) :
    (dictUpdate l k v).map Prod.fst = l.map Prod.fst := by
  induction l with
  | nil => simp at h
  | cons p rest ih =>
    obtain ⟨k', v'⟩ := p
    by_cases h2 : k' = k
    · simp [dictUpdate, h2]
    · have h3 : k ∈ rest.map Prod.fst := by
        simp only [List.map_cons, List.mem_cons] at h
        rcases h with h | h
        · exact absurd h.symm h2
        · exact h
      simp [dictUpdate, h2, ih h3]

theorem mem_dictUpdate {α : Type} (l : List (String × Option α)) (k : String) (v : α)
    (p : String × Option α) (h : p ∈ dictUpdate l k v) : p ∈ l ∨ p = (k, some v) := by
  induction l with
  | nil =>
    rw [dictUpdate] at h
    rcases List.mem_cons.mp h with h | h
    · exact Or.inr h
    · simp at h
  | cons q rest ih =>
    obtain ⟨k', v'⟩ := q
    by_cases h2 : k' = k
    · subst h2
      rw [dictUpdate, if_pos rfl] at h
      rcases List.mem_cons.mp h with h | h
      · exact Or.inr h
      · exact Or.inl (List.mem_cons_of_mem _ h)
    · rw [dictUpdate, if_neg h2] at h
      rcases List.mem_cons.mp h with h | h
      · exact Or.inl (by rw [h]; exact List.mem_cons_self _ _)
      · rcases ih h with h3 | h3
        · exact Or.inl (List.mem_cons_of_mem _ h3)
        · exact Or.inr h3

theorem dictLookup_some_of_mem_keys {α : Type} (l : List (String × α)) (k : String)
    (h : k ∈ l.map Prod.fst) : ∃ w, dictLookup l k = some w := by
  induction l with
  | nil => simp at h
  | cons p rest ih =>
    obtain ⟨k', v'⟩ := p
    by_cases h2 : k' = k
    · exact ⟨v', by simp [dictLookup, h2]⟩
    · simp only [List.map_cons, List.mem_cons] at h
      rcases h with h | h
      · exact absurd h.symm h2
      · obtain ⟨w, hw⟩ := ih h
        exact ⟨w, by simp [dictLookup, h2, hw]⟩

theorem mem_keys_of_dictLookup {α : Type} (l : List (String × α)) (k : String) (w : α)
    (h : dictLookup l k = some w) : k ∈ l.map Prod.fst := by
  induction l with
  | nil => simp [dictLookup] at h
  | cons p rest ih =>
    obtain ⟨k', v'⟩ := p
    by_cases h2 : k' = k
    · simp [h2]
    · simp only [dictLookup, if_neg h2] at h
      simp [ih h]

theorem dictLookup_of_mem_nodup {α : Type} (l : List (String × α)) (k : String) (v : α)
    (hnd : (l.map Prod.fst).Nodup) (h : (k, v) ∈ l) : dictLookup l k = some v := by
  induction l with
  | nil => simp at h
  | cons p rest ih =>
    obtain ⟨k', v'⟩ := p
    simp only [List.map_cons, List.nodup_cons] at hnd
    rcases List.mem_cons.mp h with h | h
    · cases h
      simp [dictLookup]
    · have hne : ¬ k' = k := by
        intro he
        exact hnd.1 (he.symm ▸ (List.mem_map.mpr ⟨(k, v), h, rfl⟩))
      simp [dictLookup, hne, ih hnd.2 h]

theorem dictLookup_init (names : List String) (k : String) (w : Option CheckResult)
    (h : dictLookup (names.map (fun n => (n, (none : Option CheckResult)))) k = some w) :
    w = none := by
  induction names with
  | nil => simp [dictLookup] at h
  | cons n rest ih =>
    by_cases h2 : n = k
    · simp [dictLookup, h2] at h
      exact h.symm
    · simp only [List.map_cons, dictLookup, if_neg h2] at h
      exact ih h

/-! ## Lemmas about job picking and lookup of checks -/

theorem pickJob_eq {α : Type} (l : List α) (k : Nat) (j : α) (rest : List α)
    (h : pickJob l k = some (j, rest)) :
    ∃ l1 l2, l = l1 ++ j :: l2 ∧ rest = l1 ++ l2 := by
  induction l generalizing k j rest with
  | nil => simp [pickJob] at h
  | cons a tail ih =>
    cases k with
    | zero =>
      simp only [pickJob, Option.some.injEq, Prod.mk.injEq] at h
      exact ⟨[], tail, by simp [h.1], by simp [h.2]⟩
    | succ k' =>
      simp only [pickJob] at h
      cases hp : pickJob tail k' with
      | some q =>
        obtain ⟨j', rest'⟩ := q
        rw [hp] at h
        simp only [Option.some.injEq, Prod.mk.injEq] at h
        obtain ⟨l1, l2, h1, h2⟩ := ih k' j' rest' hp
        exact ⟨a :: l1, l2, by simp [h1, ← h.1], by simp [h2, ← h.2]⟩
      | none =>
        rw [hp] at h
        simp only [Option.some.injEq, Prod.mk.injEq] at h
        exact ⟨[], tail, by simp [h.1], by simp [h.2]⟩

theorem findCheck_mem (cf : ChecksFile) (n : String) (c : Check)
    (h : findCheck cf n = some c) : c ∈ cf.checks :=
  List.mem_of_find?_eq_some h

theorem findCheck_name (cf : ChecksFile) (n : String) (c : Check)
    (h : findCheck cf n = some c) : c.name = n := by
  have := List.find?_some h
  simpa using this

theorem execJob_name (cf : ChecksFile) (n : String) : (execJob cf n).1.name = n := by
  unfold execJob
  cases h : findCheck cf n with
  | none => rfl
  | some c => rw [wrapper_name, findCheck_name cf n c h]

theorem unique_by_name (cf : ChecksFile) (hnd : (check_names cf).Nodup)
    (c c' : Check) (hc : c ∈ cf.checks) (hc' : c' ∈ cf.checks) (h : c.name = c'.name) :
    c = c' :=
  List.inj_on_of_nodup_map hnd hc hc' h

theorem findCheck_of_mem (cf : ChecksFile) (hnd : (check_names cf).Nodup)
    (c : Check) (hc : c ∈ cf.checks) : findCheck cf c.name = some c := by
  cases h : findCheck cf c.name with
  | none =>
    have h2 := List.find?_eq_none.mp h c hc
    simp at h2
  | some c' =>
    have h1 := findCheck_name cf c.name c' h
    rw [unique_by_name cf hnd c' c (findCheck_mem cf _ _ h) hc h1]

theorem mem_dependency_graph (cf : ChecksFile) (dep : Option String) (n : String) :
    n ∈ dependency_graph cf dep ↔
      ∃ c ∈ cf.checks, c.name = n ∧ c.dependency = dep := by
  simp only [dependency_graph, List.mem_map, List.mem_filter, decide_eq_true_eq]
  constructor
  · rintro ⟨c, ⟨hc, hd⟩, hn⟩
    exact ⟨c, hc, hn, hd⟩
  · rintro ⟨c, hc, hn, hd⟩
    exact ⟨c, ⟨hc, hd⟩, hn⟩

theorem dependency_graph_nodup (cf : ChecksFile) (hnd : (check_names cf).Nodup)
    (dep : Option String) : (dependency_graph cf dep).Nodup := by
  have hsub : (dependency_graph cf dep).Sublist (check_names cf) := by
    unfold dependency_graph check_names
    exact List.Sublist.map _ (List.filter_sublist cf.checks)
  exact hsub.nodup hnd

theorem graphHyp_dependency_graph (cf : ChecksFile) : GraphHyp cf (dependency_graph cf) :=
  fun d n hn => (mem_dependency_graph cf d n).mp hn

theorem graphHyp_build_subgraph (cf : ChecksFile) (closure : List String) :
    GraphHyp cf (build_subgraph cf closure) := by
  intro d n hn
  cases d with
  | none =>
    simp only [build_subgraph, List.mem_filter] at hn
    exact (mem_dependency_graph cf none n).mp hn.1
  | some d' =>
    simp only [build_subgraph] at hn
    by_cases hd : d' ∈ closure
    · rw [if_pos hd] at hn
      simp only [List.mem_filter] at hn
      exact (mem_dependency_graph cf (some d') n).mp hn.1
    · rw [if_neg hd] at hn
      simp at hn

/-! ## Declaration positions and the dependency-chain relation -/

theorem posOf_lt_length (cf : ChecksFile) (n : String) (h : n ∈ check_names cf) :
    posOf cf n < cf.checks.length := by
  have h1 : posOf cf n < (check_names cf).length := List.indexOf_lt_length.mpr h
  simpa [check_names] using h1

theorem name_pos (cf : ChecksFile) (hnd : (check_names cf).Nodup) (i : Nat)
    (hi : i < cf.checks.length) : posOf cf ((cf.checks[i]).name) = i := by
  have hi' : i < (check_names cf).length := by simpa [check_names] using hi
  have h1 : (check_names cf).get ⟨i, hi'⟩ = (cf.checks[i]).name := by
    simp [check_names]
  unfold posOf
  rw [← h1]
  exact List.get_indexOf hnd ⟨i, hi'⟩

theorem chain_of_isDepOf (cf : ChecksFile) (m p : String) (h : IsDepOf cf m p) :
    DepChain cf p m := by
  obtain ⟨c, hc, hn, hd⟩ := h
  have := DepChain.direct hc hd
  rwa [hn] at this

theorem depChain_pos_lt (cf : ChecksFile) (hwf : WellFormed cf) (a b : String)
    (h : DepChain cf a b) : posOf cf a < posOf cf b := by
  induction h with
  | @direct a' c hmem hdep =>
    obtain ⟨i, hi, hgi⟩ := List.mem_iff_getElem.mp hmem
    have hdep' : (cf.checks.get ⟨i, hi⟩).dependency = some a' := by
      rw [List.get_eq_getElem]
      rw [hgi]
      exact hdep
    obtain ⟨j, hj, hjname⟩ := hwf.2 ⟨i, hi⟩ a' hdep'
    have h1 : posOf cf c.name = i := by
      have := name_pos cf hwf.1 i hi
      rwa [hgi] at this
    have h2 : posOf cf a' = j.val := by
      have := name_pos cf hwf.1 j.val j.2
      rw [← List.get_eq_getElem] at this
      rwa [hjname] at this
    have hj2 : j.val < i := hj
    omega
  | trans hab hbc ihab ihbc => exact Nat.lt_trans ihab ihbc

theorem depChain_irrefl (cf : ChecksFile) (hwf : WellFormed cf) (a : String)
    (h : DepChain cf a a) : False :=
  Nat.lt_irrefl _ (depChain_pos_lt cf hwf a a h)

theorem depChain_mem_right (cf : ChecksFile) (a b : String) (h : DepChain cf a b) :
    b ∈ check_names cf := by
  induction h with
  | @direct a' c hmem _ => exact List.mem_map.mpr ⟨c, hmem, rfl⟩
  | trans _ _ _ ihbc => exact ihbc

theorem depChain_mem_left (cf : ChecksFile) (hwf : WellFormed cf) (a b : String)
    (h : DepChain cf a b) : a ∈ check_names cf := by
  induction h with
  | @direct a' c hmem hdep =>
    obtain ⟨i, hi, hgi⟩ := List.mem_iff_getElem.mp hmem
    have hdep' : (cf.checks.get ⟨i, hi⟩).dependency = some a' := by
      rw [List.get_eq_getElem]; rw [hgi]; exact hdep
    obtain ⟨j, _, hjname⟩ := hwf.2 ⟨i, hi⟩ a' hdep'
    rw [← hjname]
    exact List.mem_map.mpr ⟨cf.checks.get j, List.get_mem _ _ _, rfl⟩
  | trans _ _ ihab _ => exact ihab

theorem depChain_last (cf : ChecksFile) (a b : String) (h : DepChain cf a b) :
    ∃ c ∈ cf.checks, c.name = b ∧
      ∃ m, c.dependency = some m ∧ (m = a ∨ DepChain cf a m) := by
  induction h with
  | @direct a' c hmem hdep => exact ⟨c, hmem, rfl, a', hdep, Or.inl rfl⟩
  | @trans a' b' c' hab hbc ihab ihbc =>
    obtain ⟨ch, hch, hname, m, hdep, hcase⟩ := ihbc
    refine ⟨ch, hch, hname, m, hdep, Or.inr ?_⟩
    rcases hcase with h2 | h2
    · rw [h2]; exact hab
    · exact DepChain.trans hab h2

theorem depChain_first (cf : ChecksFile) (a b : String) (h : DepChain cf a b) :
    ∃ c ∈ cf.checks, c.dependency = some a ∧
      (c.name = b ∨ DepChain cf c.name b) := by
  induction h with
  | @direct a' c hmem hdep => exact ⟨c, hmem, hdep, Or.inl rfl⟩
  | @trans a' b' c' hab hbc ihab ihbc =>
    obtain ⟨ch, hch, hdep, hcase⟩ := ihab
    refine ⟨ch, hch, hdep, Or.inr ?_⟩
    rcases hcase with h2 | h2
    · rw [h2]; exact hbc
    · exact DepChain.trans h2 hbc

theorem ancestors_comparable_aux (cf : ChecksFile) (hwf : WellFormed cf) :
    ∀ N k a b, posOf cf k ≤ N → DepChain cf a k → DepChain cf b k →
      a = b ∨ DepChain cf a b ∨ DepChain cf b a := by
  intro N
  induction N with
  | zero =>
    intro k a b hpos hak hbk
    obtain ⟨c1, hc1, hn1, m1, hd1, hcase1⟩ := depChain_last cf a k hak
    obtain ⟨c2, hc2, hn2, m2, hd2, hcase2⟩ := depChain_last cf b k hbk
    have hceq : c1 = c2 := unique_by_name cf hwf.1 c1 c2 hc1 hc2 (hn1.trans hn2.symm)
    have hmeq : m1 = m2 := by
      rw [hceq] at hd1
      rw [hd1] at hd2
      exact Option.some.injEq .. ▸ hd2.symm ▸ rfl
    have hmk : DepChain cf m1 k := by
      have := DepChain.direct hc1 hd1
      rwa [hn1] at this
    have hlt := depChain_pos_lt cf hwf m1 k hmk
    rcases hcase1 with h1 | h1 <;> rcases hcase2 with h2 | h2
    · exact Or.inl (h1.symm.trans (hmeq.trans h2))
    · rw [hmeq] at h1
      exact Or.inr (Or.inr (h1 ▸ h2))
    · rw [← hmeq] at h2
      exact Or.inr (Or.inl (h2 ▸ h1))
    · omega
  | succ N ih =>
    intro k a b hpos hak hbk
    obtain ⟨c1, hc1, hn1, m1, hd1, hcase1⟩ := depChain_last cf a k hak
    obtain ⟨c2, hc2, hn2, m2, hd2, hcase2⟩ := depChain_last cf b k hbk
    have hceq : c1 = c2 := unique_by_name cf hwf.1 c1 c2 hc1 hc2 (hn1.trans hn2.symm)
    have hmeq : m1 = m2 := by
      rw [hceq] at hd1
      rw [hd1] at hd2
      exact Option.some.injEq .. ▸ hd2.symm ▸ rfl
    have hmk : DepChain cf m1 k := by
      have := DepChain.direct hc1 hd1
      rwa [hn1] at this
    have hlt := depChain_pos_lt cf hwf m1 k hmk
    rcases hcase1 with h1 | h1 <;> rcases hcase2 with h2 | h2
    · exact Or.inl (h1.symm.trans (hmeq.trans h2))
    · rw [hmeq] at h1
      exact Or.inr (Or.inr (h1 ▸ h2))
    · rw [← hmeq] at h2
      exact Or.inr (Or.inl (h2 ▸ h1))
    · rw [← hmeq] at h2
      exact ih m1 a b (by omega) h1 h2

theorem ancestors_comparable (cf : ChecksFile) (hwf : WellFormed cf) (k a b : String)
    (hak : DepChain cf a k) (hbk : DepChain cf b k) :
    a = b ∨ DepChain cf a b ∨ DepChain cf b a :=
  ancestors_comparable_aux cf hwf (posOf cf k) k a b le_rfl hak hbk

theorem siblings_disjoint (cf : ChecksFile) (hwf : WellFormed cf) (p m m' k : String)
    (hm : IsDepOf cf m p) (hm' : IsDepOf cf m' p) (hne : m ≠ m')
    (h1 : m = k ∨ DepChain cf m k) (h2 : m' = k ∨ DepChain cf m' k) : False := by
  have noChain : ∀ x y, IsDepOf cf x p → IsDepOf cf y p → DepChain cf y x → False := by
    intro x y hx hy hyx
    obtain ⟨c, hc, hcn, mid, hdep, hcase⟩ := depChain_last cf y x hyx
    obtain ⟨cx, hcx, hcxn, hcxd⟩ := hx
    have hceq : c = cx := unique_by_name cf hwf.1 c cx hc hcx (hcn.trans hcxn.symm)
    have hmid : mid = p := by
      rw [hceq, hcxd] at hdep
      exact (Option.some.injEq .. ▸ hdep.symm ▸ rfl : p = mid).symm
    have hpy := depChain_pos_lt cf hwf p y (chain_of_isDepOf cf y p hy)
    rcases hcase with h3 | h3
    · rw [hmid] at h3
      rw [h3] at hpy
      omega
    · rw [hmid] at h3
      have := depChain_pos_lt cf hwf y p h3
      omega
  rcases h1 with h1 | h1 <;> rcases h2 with h2 | h2
  · exact hne (h1.trans h2.symm)
  · exact noChain m m' hm hm' (h1 ▸ h2)
  · exact noChain m' m hm' hm (h2 ▸ h1)
  · rcases ancestors_comparable cf hwf k m m' h1 h2 with h3 | h3 | h3
    · exact hne h3
    · exact noChain m' m hm' hm h3
    · exact noChain m m' hm hm' h3

/-! ## The executor-loop invariant -/

theorem pickJob_mem {α : Type} (l : List α) (k : Nat) (j : α) (rest : List α)
    (h : pickJob l k = some (j, rest)) : j ∈ l := by
  obtain ⟨l1, l2, h1, _⟩ := pickJob_eq l k j rest h
  rw [h1]
  exact List.mem_append_right l1 (List.mem_cons_self _ _)

theorem pickJob_subset {α : Type} (l : List α) (k : Nat) (j : α) (rest : List α)
    (h : pickJob l k = some (j, rest)) : ∀ x ∈ rest, x ∈ l := by
  obtain ⟨l1, l2, h1, h2⟩ := pickJob_eq l k j rest h
  intro x hx
  rw [h2] at hx
  rw [h1]
  rcases List.mem_append.mp hx with hx | hx
  · exact List.mem_append_left _ hx
  · exact List.mem_append_right _ (List.mem_cons_of_mem _ hx)

theorem JobOk_mono (cf : ChecksFile) (res res' : List (String × Option CheckResult))
    (hst : ∀ k r, dictLookup res k = some (some r) → dictLookup res' k = some (some r))
    (n : String) (h : JobOk cf res n) : JobOk cf res' n := by
  obtain ⟨c, hc, hcn, hdep⟩ := h
  refine ⟨c, hc, hcn, ?_⟩
  rcases hdep with hdep | ⟨d, rd, hdep, hlook, hpass⟩
  · exact Or.inl hdep
  · exact Or.inr ⟨d, rd, hdep, hst d rd hlook, hpass⟩

theorem depPassedNow_true (cf : ChecksFile) (hnd : (check_names cf).Nodup)
    (res : List (String × Option CheckResult)) (n : String) (hjob : JobOk cf res n) :
    depPassedNow cf res n = true := by
  obtain ⟨c, hc, hcn, hdep⟩ := hjob
  have hfind : findCheck cf n = some c := by
    rw [← hcn]
    exact findCheck_of_mem cf hnd c hc
  unfold depPassedNow
  rw [hfind]
  rcases hdep with hdep | ⟨d, rd, hdep, hlook, hpass⟩
  · simp [hdep]
  · simp [hdep, hlook, hpass]

theorem initState_loopInv (cf : ChecksFile) (g : Option String → List String)
    (hg : GraphHyp cf g) : LoopInv cf (initState cf g) := by
  have hlook : ∀ k w, dictLookup (initState cf g).results k = some w → w = none := by
    intro k w h
    exact dictLookup_init (check_names cf) k w h
  refine ⟨⟨?_, ?_⟩, ?_, ?_, ?_, ?_, ?_, ?_⟩
  · have hmap : ∀ l : List String,
        (l.map (fun n => (n, (none : Option CheckResult)))).map Prod.fst = l := by
      intro l
      induction l with
      | nil => rfl
      | cons a t ih => simp only [List.map_cons]; rw [ih]
    exact hmap (check_names cf)
  · intro p hp r hr
    simp only [initState, List.mem_map] at hp
    obtain ⟨n, _, hn⟩ := hp
    rw [← hn] at hr
    simp at hr
  · intro k r h
    exact absurd (hlook k (some r) h) (by simp)
  · intro p hp
    simp only [initState, List.mem_map] at hp
    obtain ⟨n, hn1, hn2⟩ := hp
    obtain ⟨c, hc, hcn, hcd⟩ := hg none n hn1
    refine ⟨c, hc, by rw [← hn2]; exact hcn, Or.inl hcd⟩
  · intro q hq
    simp [initState] at hq
  · intro q hq
    simp [initState] at hq
  · intro n hn
    simp [initState] at hn
  · intro k r h
    exact absurd (hlook k (some r) h) (by simp)

theorem stepRun_loopInv (cf : ChecksFile) (g : Option String → List String) (k : Nat)
    (st st' : RunState) (hnd : (check_names cf).Nodup) (hg : GraphHyp cf g)
    (h : stepRun cf g k st = .ok st') (hinv : LoopInv cf st) : LoopInv cf st' := by
  obtain ⟨⟨hkeys, hnamed⟩, hstored, hjobs, hinvoked, hflags, hnp, hpassor⟩ := hinv
  unfold stepRun at h
  cases hp : pickJob st.notDone k with
  | none =>
    rw [hp] at h
    cases h
    exact ⟨⟨hkeys, hnamed⟩, hstored, hjobs, hinvoked, hflags, hnp, hpassor⟩
  | some pr =>
    obtain ⟨⟨name, ds⟩, rest⟩ := pr
    rw [hp] at h
    simp only at h
    rw [execJob_name cf name] at h
    -- facts about the picked job
    have hjob : JobOk cf st.results name := hjobs (name, ds) (pickJob_mem _ _ _ _ hp)
    have hmemname : name ∈ check_names cf := by
      obtain ⟨c, hc, hcn, _⟩ := hjob
      exact List.mem_map.mpr ⟨c, hc, hcn⟩
    have hmemkeys : name ∈ st.results.map Prod.fst := by rw [hkeys]; exact hmemname
    have hself : dictLookup (dictUpdate st.results name (execJob cf name).1) name
        = some (some (execJob cf name).1) := dictLookup_update_self _ _ _
    have hstable : ∀ k' r, dictLookup st.results k' = some (some r) →
        dictLookup (dictUpdate st.results name (execJob cf name).1) k'
          = some (some r) := by
      intro k' r hl
      by_cases hk : k' = name
      · subst hk
        obtain ⟨hr, _⟩ := hstored k' r hl
        rw [hr]
        exact hself
      · rw [dictLookup_update_ne _ _ _ _ hk]
        exact hl
    have hlookupchar : ∀ k' r,
        dictLookup (dictUpdate st.results name (execJob cf name).1) k'
          = some (some r) →
        (k' = name ∧ r = (execJob cf name).1) ∨
        (¬ k' = name ∧ dictLookup st.results k' = some (some r)) := by
      intro k' r hl
      by_cases hk : k' = name
      · rw [hk, hself] at hl
        injection hl with h3
        injection h3 with h4
        exact Or.inl ⟨hk, h4.symm⟩
      · rw [dictLookup_update_ne _ _ _ _ hk] at hl
        exact Or.inr ⟨hk, hl⟩
    have hRWF : ResultsWF cf (dictUpdate st.results name (execJob cf name).1) := by
      constructor
      · rw [dictUpdate_keys_of_mem _ _ _ hmemkeys]
        exact hkeys
      · intro p hp2 r hr
        rcases mem_dictUpdate _ _ _ p hp2 with h2 | h2
        · exact hnamed p h2 r hr
        · rw [h2] at hr ⊢
          simp only at hr
          injection hr with h3
          exact h3 ▸ execJob_name cf name
    have hStored1 : ∀ k' r,
        dictLookup (dictUpdate st.results name (execJob cf name).1) k'
          = some (some r) →
        r = (execJob cf k').1 ∧
          k' ∈ (st.invoked ++ [(name, depPassedNow cf st.results name)]).map Prod.fst := by
      intro k' r hl
      rcases hlookupchar k' r hl with ⟨hk, hr⟩ | ⟨hk, hl2⟩
      · subst hk
        exact ⟨hr, by simp⟩
      · obtain ⟨h1, h2⟩ := hstored k' r hl2
        exact ⟨h1, by simp [h2]⟩
    have hInvoked1 : ∀ q ∈ st.invoked ++ [(name, depPassedNow cf st.results name)],
        JobOk cf (dictUpdate st.results name (execJob cf name).1) q.1 := by
      intro q hq
      rcases List.mem_append.mp hq with hq | hq
      · exact JobOk_mono cf _ _ hstable q.1 (hinvoked q hq)
      · rw [List.mem_singleton.mp hq]
        exact JobOk_mono cf _ _ hstable name hjob
    have hFlags1 : ∀ q ∈ st.invoked ++ [(name, depPassedNow cf st.results name)],
        q.2 = true := by
      intro q hq
      rcases List.mem_append.mp hq with hq | hq
      · exact hflags q hq
      · rw [List.mem_singleton.mp hq]
        exact depPassedNow_true cf hnd st.results name hjob
    have hNp1 : ∀ n ∈ st.notPassed,
        dictLookup (dictUpdate st.results name (execJob cf name).1) n
          = some (some ((execJob cf n).1)) ∧
        ¬ ((execJob cf n).1.passed = some true) := by
      intro n hn
      obtain ⟨h1, h2⟩ := hnp n hn
      exact ⟨hstable n _ h1, h2⟩
    by_cases hpass : (execJob cf name).1.passed = some true
    · rw [if_pos hpass] at h
      by_cases hchild : g name = []
      · rw [if_pos hchild] at h
        cases h
        refine ⟨hRWF, hStored1, ?_, hInvoked1, hFlags1, hNp1, ?_⟩
        · intro p hp2
          exact JobOk_mono cf _ _ hstable p.1
            (hjobs p (pickJob_subset _ _ _ _ hp p hp2))
        · intro k' r hl
          rcases hlookupchar k' r hl with ⟨hk, hr⟩ | ⟨hk, hl2⟩
          · rw [hr]; exact Or.inl hpass
          · rcases hpassor k' r hl2 with h2 | h2
            · exact Or.inl h2
            · exact Or.inr h2
      · rw [if_neg hchild] at h
        by_cases hpick : statePicklable (execJob cf name).2 = true
        · rw [if_pos hpick] at h
          cases h
          refine ⟨hRWF, hStored1, ?_, hInvoked1, hFlags1, hNp1, ?_⟩
          · intro p hp2
            rcases List.mem_append.mp hp2 with hp2 | hp2
            · exact JobOk_mono cf _ _ hstable p.1
                (hjobs p (pickJob_subset _ _ _ _ hp p hp2))
            · simp only [List.mem_map] at hp2
              obtain ⟨cname, hcn1, hcn2⟩ := hp2
              obtain ⟨c, hc, hcname, hcdep⟩ := hg (some name) cname hcn1
              refine ⟨c, hc, by rw [← hcn2]; exact hcname, Or.inr ?_⟩
              exact ⟨name, (execJob cf name).1, hcdep, hself, hpass⟩
          · intro k' r hl
            rcases hlookupchar k' r hl with ⟨hk, hr⟩ | ⟨hk, hl2⟩
            · rw [hr]; exact Or.inl hpass
            · rcases hpassor k' r hl2 with h2 | h2
              · exact Or.inl h2
              · exact Or.inr h2
        · rw [if_neg hpick] at h
          cases h
    · rw [if_neg hpass] at h
      cases h
      refine ⟨hRWF, hStored1, ?_, hInvoked1, hFlags1, ?_, ?_⟩
      · intro p hp2
        exact JobOk_mono cf _ _ hstable p.1
          (hjobs p (pickJob_subset _ _ _ _ hp p hp2))
      · intro n hn
        rcases List.mem_append.mp hn with hn | hn
        · exact hNp1 n hn
        · rw [List.mem_singleton.mp hn]
          exact ⟨hself, hpass⟩
      · intro k' r hl
        rcases hlookupchar k' r hl with ⟨hk, hr⟩ | ⟨hk, hl2⟩
        · subst hk
          exact Or.inr (by simp)
        · rcases hpassor k' r hl2 with h2 | h2
          · exact Or.inl h2
          · exact Or.inr (List.mem_append_left _ h2)

theorem runLoop_loopInv (cf : ChecksFile) (g : Option String → List String)
    (hnd : (check_names cf).Nodup) (hg : GraphHyp cf g) :
    ∀ choices st st', runLoop cf g choices st = .ok st' → LoopInv cf st →
      LoopInv cf st' ∧ st'.notDone = [] := by
  intro choices
  induction choices with
  | nil =>
    intro st st' h hinv
    unfold runLoop at h
    by_cases hd : st.notDone = []
    · rw [if_pos hd] at h
      cases h
      exact ⟨hinv, hd⟩
    · rw [if_neg hd] at h
      cases h
  | cons k ks ih =>
    intro st st' h hinv
    unfold runLoop at h
    by_cases hd : st.notDone = []
    · rw [if_pos hd] at h
      cases h
      exact ⟨hinv, hd⟩
    · rw [if_neg hd] at h
      cases hs : stepRun cf g k st with
      | error e =>
        rw [hs] at h
        cases h
      | ok st'' =>
        rw [hs] at h
        exact ih st'' st' h (stepRun_loopInv cf g k st st'' hnd hg hs hinv)

theorem runState_none_eq (cf : ChecksFile) (choices : List Nat) :
    CheckRunner.runState cf none choices
      = runLoop cf (dependency_graph cf) choices (initState cf (dependency_graph cf)) :=
  rfl

theorem runState_targets_eq (cf : ChecksFile) (ts : List String) (closure : List String)
    (choices : List Nat) (hts : ¬ ts = []) (hclo : dependencies_of cf ts = .ok closure) :
    CheckRunner.runState cf (some ts) choices
      = runLoop cf (build_subgraph cf closure) choices
          (initState cf (build_subgraph cf closure)) := by
  have h1 : pickGraph cf (some ts) = .ok (build_subgraph cf closure) := by
    simp only [pickGraph]
    rw [if_neg hts, hclo]
    rfl
  unfold CheckRunner.runState
  rw [h1]
  rfl

/-! ## Lemmas about the skip pass -/

theorem skipResult_name (cf : ChecksFile) (parent n : String) :
    (skipResult cf parent n).name = n := rfl

theorem skipChildList_mono (cf : ChecksFile)
    (recurse : String → List (String × Option CheckResult) → List (String × Option CheckResult))
    (parent : String)
    (hrec : ∀ n res k v, dictLookup res k = some (some v) →
      dictLookup (recurse n res) k = some (some v)) :
    ∀ l res k v, dictLookup res k = some (some v) →
      dictLookup (skipChildList cf recurse parent l res) k = some (some v) := by
  intro l
  induction l with
  | nil =>
    intro res k v h
    simpa [skipChildList] using h
  | cons n rest ih =>
    intro res k v h
    cases hv : dictLookup res n with
    | none =>
      simp only [skipChildList, hv]
      exact ih res k v h
    | some w =>
      cases w with
      | none =>
        simp only [skipChildList, hv]
        apply ih
        apply hrec
        have hk : ¬ k = n := by
          intro he
          rw [he, hv] at h
          cases h
        rw [dictLookup_update_ne _ _ _ _ hk]
        exact h
      | some r =>
        simp only [skipChildList, hv]
        exact ih res k v h

theorem skip_children_mono (cf : ChecksFile) :
    ∀ fuel parent res k v, dictLookup res k = some (some v) →
      dictLookup (skip_children cf fuel parent res) k = some (some v) := by
  intro fuel
  induction fuel with
  | zero =>
    intro parent res k v h
    simpa [skip_children] using h
  | succ fuel ih =>
    intro parent res k v h
    simp only [skip_children]
    exact skipChildList_mono cf _ parent (fun n r => ih n r) _ res k v h

theorem skipChildList_frame (cf : ChecksFile)
    (recurse : String → List (String × Option CheckResult) → List (String × Option CheckResult))
    (parent : String)
    (hrec : ∀ n res k, dictLookup (recurse n res) k = dictLookup res k ∨
      (DepChain cf n k ∧ dictLookup res k = some none ∧ MarkedAsSkip cf (recurse n res) k))
    (hrecmono : ∀ n res k v, dictLookup res k = some (some v) →
      dictLookup (recurse n res) k = some (some v)) :
    ∀ l res k, (∀ m ∈ l, IsDepOf cf m parent) →
      dictLookup (skipChildList cf recurse parent l res) k = dictLookup res k ∨
      ((∃ m ∈ l, m = k ∨ DepChain cf m k) ∧ dictLookup res k = some none ∧
        MarkedAsSkip cf (skipChildList cf recurse parent l res) k) := by
  intro l
  induction l with
  | nil =>
    intro res k _
    left
    simp [skipChildList]
  | cons n rest ih =>
    intro res k hl
    have hlrest : ∀ m ∈ rest, IsDepOf cf m parent :=
      fun m hm => hl m (List.mem_cons_of_mem _ hm)
    have hweak : (∃ m ∈ rest, m = k ∨ DepChain cf m k) →
        ∃ m ∈ n :: rest, m = k ∨ DepChain cf m k :=
      fun ⟨m, hm, hmk⟩ => ⟨m, List.mem_cons_of_mem _ hm, hmk⟩
    cases hv : dictLookup res n with
    | none =>
      simp only [skipChildList, hv]
      rcases ih res k hlrest with h | ⟨hex, h2, h3⟩
      · exact Or.inl h
      · exact Or.inr ⟨hweak hex, h2, h3⟩
    | some w =>
      cases w with
      | some r =>
        simp only [skipChildList, hv]
        rcases ih res k hlrest with h | ⟨hex, h2, h3⟩
        · exact Or.inl h
        · exact Or.inr ⟨hweak hex, h2, h3⟩
      | none =>
        simp only [skipChildList, hv]
        by_cases hk : k = n
        · -- the child itself is marked here and the mark survives
          have hmark1 : dictLookup (dictUpdate res n (skipResult cf parent n)) n
              = some (some (skipResult cf parent n)) := dictLookup_update_self _ _ _
          have hmark2 : dictLookup (recurse n (dictUpdate res n (skipResult cf parent n))) n
              = some (some (skipResult cf parent n)) := hrecmono n _ n _ hmark1
          have hmark3 : dictLookup (skipChildList cf recurse parent rest
              (recurse n (dictUpdate res n (skipResult cf parent n)))) n
              = some (some (skipResult cf parent n)) :=
            skipChildList_mono cf recurse parent hrecmono rest _ n _ hmark2
          right
          refine ⟨⟨n, List.mem_cons_self _ _, Or.inl hk.symm⟩, by rw [hk]; exact hv, ?_⟩
          rw [hk]
          exact ⟨parent, hl n (List.mem_cons_self _ _), hmark3⟩
        · have h1 : dictLookup (dictUpdate res n (skipResult cf parent n)) k
              = dictLookup res k := dictLookup_update_ne _ _ _ _ hk
          rcases hrec n (dictUpdate res n (skipResult cf parent n)) k with h2 |
            ⟨hchain, hnone1, hmark2⟩
          · rcases ih (recurse n (dictUpdate res n (skipResult cf parent n))) k hlrest
              with h3 | ⟨hex, hnone2, hmark3⟩
            · left
              rw [h3, h2, h1]
            · right
              refine ⟨hweak hex, ?_, hmark3⟩
              rw [← h1, ← h2]
              exact hnone2
          · right
            obtain ⟨d, hd, hval⟩ := hmark2
            refine ⟨⟨n, List.mem_cons_self _ _, Or.inr hchain⟩, by rw [← h1]; exact hnone1, ?_⟩
            exact ⟨d, hd, skipChildList_mono cf recurse parent hrecmono rest _ k _ hval⟩

theorem skip_children_frame (cf : ChecksFile) :
    ∀ fuel parent res k,
      dictLookup (skip_children cf fuel parent res) k = dictLookup res k ∨
      (DepChain cf parent k ∧ dictLookup res k = some none ∧
        MarkedAsSkip cf (skip_children cf fuel parent res) k) := by
  intro fuel
  induction fuel with
  | zero =>
    intro parent res k
    left
    simp [skip_children]
  | succ fuel ih =>
    intro parent res k
    have hl : ∀ m ∈ dependency_graph cf (some parent), IsDepOf cf m parent := by
      intro m hm
      obtain ⟨c, hc, hcn, hcd⟩ := (mem_dependency_graph cf (some parent) m).mp hm
      exact ⟨c, hc, hcn, hcd⟩
    simp only [skip_children]
    rcases skipChildList_frame cf _ parent (fun n r j => ih n r j)
        (fun n r j v h => skip_children_mono cf fuel n r j v h)
        (dependency_graph cf (some parent)) res k hl with h | ⟨⟨m, hm, hmk⟩, h2, h3⟩
    · exact Or.inl h
    · right
      refine ⟨?_, h2, h3⟩
      have hpm : DepChain cf parent m := chain_of_isDepOf cf m parent (hl m hm)
      rcases hmk with hmk | hmk
      · rw [← hmk]
        exact hpm
      · exact DepChain.trans hpm hmk

theorem skipPass_cons (cf : ChecksFile) (f : String) (rest : List String)
    (res : List (String × Option CheckResult)) :
    skipPass cf (f :: rest) res
      = skipPass cf rest (skip_children cf cf.checks.length f res) := by
  simp [skipPass]

theorem skipPass_mono (cf : ChecksFile) :
    ∀ np res k v, dictLookup res k = some (some v) →
      dictLookup (skipPass cf np res) k = some (some v) := by
  intro np
  induction np with
  | nil =>
    intro res k v h
    simpa [skipPass] using h
  | cons f rest ih =>
    intro res k v h
    rw [skipPass_cons]
    exact ih _ k v (skip_children_mono cf _ f res k v h)

theorem skipPass_frame (cf : ChecksFile) :
    ∀ np res k,
      dictLookup (skipPass cf np res) k = dictLookup res k ∨
      MarkedAsSkip cf (skipPass cf np res) k := by
  intro np
  induction np with
  | nil =>
    intro res k
    left
    simp [skipPass]
  | cons f rest ih =>
    intro res k
    rw [skipPass_cons]
    rcases ih (skip_children cf cf.checks.length f res) k with h | h
    · rcases skip_children_frame cf cf.checks.length f res k with h2 | ⟨_, _, hmark⟩
      · left
        rw [h, h2]
      · right
        obtain ⟨d, hd, hval⟩ := hmark
        exact ⟨d, hd, by rw [h]; exact hval⟩
    · exact Or.inr h

theorem resultsWF_update_skip (cf : ChecksFile) (res : List (String × Option CheckResult))
    (n parent : String) (h : dictLookup res n = some none) (hwfres : ResultsWF cf res) :
    ResultsWF cf (dictUpdate res n (skipResult cf parent n)) := by
  constructor
  · rw [dictUpdate_keys_of_mem _ _ _ (mem_keys_of_dictLookup res n _ h)]
    exact hwfres.1
  · intro p hp r hr
    rcases mem_dictUpdate _ _ _ p hp with h2 | h2
    · exact hwfres.2 p h2 r hr
    · rw [h2] at hr ⊢
      simp only at hr
      injection hr with h3
      exact h3 ▸ (rfl : (skipResult cf parent n).name = n)

theorem skipChildList_resultsWF (cf : ChecksFile)
    (recurse : String → List (String × Option CheckResult) → List (String × Option CheckResult))
    (parent : String)
    (hrec : ∀ n res, ResultsWF cf res → ResultsWF cf (recurse n res)) :
    ∀ l res, ResultsWF cf res → ResultsWF cf (skipChildList cf recurse parent l res) := by
  intro l
  induction l with
  | nil =>
    intro res h
    simpa [skipChildList] using h
  | cons n rest ih =>
    intro res h
    cases hv : dictLookup res n with
    | none =>
      simp only [skipChildList, hv]
      exact ih res h
    | some w =>
      cases w with
      | none =>
        simp only [skipChildList, hv]
        exact ih _ (hrec n _ (resultsWF_update_skip cf res n parent hv h))
      | some r =>
        simp only [skipChildList, hv]
        exact ih res h

theorem skip_children_resultsWF (cf : ChecksFile) :
    ∀ fuel parent res, ResultsWF cf res →
      ResultsWF cf (skip_children cf fuel parent res) := by
  intro fuel
  induction fuel with
  | zero =>
    intro parent res h
    simpa [skip_children] using h
  | succ fuel ih =>
    intro parent res h
    simp only [skip_children]
    exact skipChildList_resultsWF cf _ parent (fun n r => ih n r) _ res h

theorem skipPass_resultsWF (cf : ChecksFile) :
    ∀ np res, ResultsWF cf res → ResultsWF cf (skipPass cf np res) := by
  intro np
  induction np with
  | nil =>
    intro res h
    simpa [skipPass] using h
  | cons f rest ih =>
    intro res h
    rw [skipPass_cons]
    exact ih _ (skip_children_resultsWF cf cf.checks.length f res h)

theorem skipChildList_complete (cf : ChecksFile) (hwf : WellFormed cf) (fuel : Nat)
    (hcomp : ∀ parent res, cf.checks.length ≤ fuel + posOf cf parent + 1 →
      (∀ n, DepChain cf parent n → dictLookup res n = some none) →
      ∀ n, DepChain cf parent n →
        MarkedAsSkip cf (skip_children cf fuel parent res) n)
    (parent : String) :
    ∀ l res,
      (∀ m ∈ l, IsDepOf cf m parent) → l.Nodup →
      cf.checks.length ≤ fuel + posOf cf parent + 2 →
      (∀ m ∈ l, ∀ k, (m = k ∨ DepChain cf m k) → dictLookup res k = some none) →
      ∀ m ∈ l, ∀ k, (m = k ∨ DepChain cf m k) →
        MarkedAsSkip cf
          (skipChildList cf (fun n r => skip_children cf fuel n r) parent l res) k := by
  intro l
  induction l with
  | nil =>
    intro res _ _ _ _ m hm
    simp at hm
  | cons m0 rest ih =>
    intro res hl hnd hfuel hnone m hm k hk
    have hd0 : IsDepOf cf m0 parent := hl m0 (List.mem_cons_self _ _)
    have h0 : dictLookup res m0 = some none := hnone m0 (List.mem_cons_self _ _) m0 (Or.inl rfl)
    simp only [skipChildList, h0]
    have hpos : posOf cf parent < posOf cf m0 :=
      depChain_pos_lt cf hwf parent m0 (chain_of_isDepOf cf m0 parent hd0)
    have hnone1 : ∀ j, DepChain cf m0 j →
        dictLookup (dictUpdate res m0 (skipResult cf parent m0)) j = some none := by
      intro j hj
      have hjm : ¬ j = m0 := fun he => depChain_irrefl cf hwf m0 (he ▸ hj)
      rw [dictLookup_update_ne _ _ _ _ hjm]
      exact hnone m0 (List.mem_cons_self _ _) j (Or.inr hj)
    have hmark2 : ∀ j, DepChain cf m0 j →
        MarkedAsSkip cf
          (skip_children cf fuel m0 (dictUpdate res m0 (skipResult cf parent m0))) j :=
      hcomp m0 _ (by omega) hnone1
    have hm0mark : MarkedAsSkip cf
        (skip_children cf fuel m0 (dictUpdate res m0 (skipResult cf parent m0))) m0 := by
      refine ⟨parent, hd0, ?_⟩
      exact skip_children_mono cf fuel m0 _ m0 _ (dictLookup_update_self _ _ _)
    by_cases hmm : m = m0
    · have hmk2 : MarkedAsSkip cf
          (skip_children cf fuel m0 (dictUpdate res m0 (skipResult cf parent m0))) k := by
        rcases hk with hk | hk
        · rw [← hk, hmm]
          exact hm0mark
        · rw [hmm] at hk
          exact hmark2 k hk
      obtain ⟨d, hd, hval⟩ := hmk2
      exact ⟨d, hd, skipChildList_mono cf _ parent
        (fun n r j v h => skip_children_mono cf fuel n r j v h) rest _ k _ hval⟩
    · have hmrest : m ∈ rest := (List.mem_cons.mp hm).resolve_left hmm
      have hnd0 : m0 ∉ rest := (List.nodup_cons.mp hnd).1
      have hndrest : rest.Nodup := (List.nodup_cons.mp hnd).2
      have hlrest : ∀ m' ∈ rest, IsDepOf cf m' parent :=
        fun m' hm' => hl m' (List.mem_cons_of_mem _ hm')
      have hnone2 : ∀ m' ∈ rest, ∀ j, (m' = j ∨ DepChain cf m' j) →
          dictLookup (skip_children cf fuel m0
            (dictUpdate res m0 (skipResult cf parent m0))) j = some none := by
        intro m' hm' j hj
        have hne : m' ≠ m0 := fun he => hnd0 (he ▸ hm')
        have hdisj : ¬ (m0 = j ∨ DepChain cf m0 j) := by
          intro hj0
          exact siblings_disjoint cf hwf parent m' m0 j (hlrest m' hm') hd0 hne hj hj0
        have hj1 : dictLookup (dictUpdate res m0 (skipResult cf parent m0)) j
            = dictLookup res j := by
          have hne2 : ¬ j = m0 := fun he => hdisj (Or.inl he.symm)
          exact dictLookup_update_ne _ _ _ _ hne2
        rcases skip_children_frame cf fuel m0 (dictUpdate res m0 (skipResult cf parent m0)) j
          with h2 | ⟨hc, _, _⟩
        · rw [h2, hj1]
          exact hnone m' (List.mem_cons_of_mem _ hm') j hj
        · exact absurd (Or.inr hc) hdisj
      exact ih _ hlrest hndrest hfuel hnone2 m hmrest k hk

theorem skip_children_complete (cf : ChecksFile) (hwf : WellFormed cf) :
    ∀ fuel parent res,
      cf.checks.length ≤ fuel + posOf cf parent + 1 →
      (∀ n, DepChain cf parent n → dictLookup res n = some none) →
      ∀ n, DepChain cf parent n →
        MarkedAsSkip cf (skip_children cf fuel parent res) n := by
  intro fuel
  induction fuel with
  | zero =>
    intro parent res hfuel hnone n hchain
    exfalso
    have h1 : posOf cf parent < posOf cf n := depChain_pos_lt cf hwf parent n hchain
    have h2 : posOf cf n < cf.checks.length :=
      posOf_lt_length cf n (depChain_mem_right cf parent n hchain)
    omega
  | succ fuel ih =>
    intro parent res hfuel hnone n hchain
    simp only [skip_children]
    have hl : ∀ m ∈ dependency_graph cf (some parent), IsDepOf cf m parent := by
      intro m hm
      obtain ⟨c, hc, hcn, hcd⟩ := (mem_dependency_graph cf (some parent) m).mp hm
      exact ⟨c, hc, hcn, hcd⟩
    have hnonelist : ∀ m ∈ dependency_graph cf (some parent), ∀ k,
        (m = k ∨ DepChain cf m k) → dictLookup res k = some none := by
      intro m hm k hk
      have hpm : DepChain cf parent m := chain_of_isDepOf cf m parent (hl m hm)
      rcases hk with hk | hk
      · rw [← hk]
        exact hnone m hpm
      · exact hnone k (DepChain.trans hpm hk)
    obtain ⟨c, hc, hcd, hcase⟩ := depChain_first cf parent n hchain
    have hmem : c.name ∈ dependency_graph cf (some parent) :=
      (mem_dependency_graph cf (some parent) c.name).mpr ⟨c, hc, rfl, hcd⟩
    exact skipChildList_complete cf hwf fuel ih parent
      (dependency_graph cf (some parent)) res hl
      (dependency_graph_nodup cf hwf.1 (some parent)) (by omega) hnonelist
      c.name hmem n hcase

theorem skipPass_marks (cf : ChecksFile) (hwf : WellFormed cf) :
    ∀ np res,
      (∀ f f' k, f ∈ np → f' ∈ np → DepChain cf f k → DepChain cf f' k → f = f') →
      (∀ f ∈ np, ConeAllNone cf res f ∨ ConeAllMarked cf res f) →
      ∀ f ∈ np, ∀ n, DepChain cf f n → MarkedAsSkip cf (skipPass cf np res) n := by
  intro np
  induction np with
  | nil =>
    intro res _ _ f hf
    simp at hf
  | cons f0 rest ih =>
    intro res hdisj hcone f hf n hchain
    rw [skipPass_cons]
    have hconef0 : ConeAllMarked cf (skip_children cf cf.checks.length f0 res) f0 := by
      rcases hcone f0 (List.mem_cons_self _ _) with hc | hc
      · intro j hj
        exact skip_children_complete cf hwf cf.checks.length f0 res (by omega) hc j hj
      · intro j hj
        obtain ⟨d, hd, hval⟩ := hc j hj
        exact ⟨d, hd, skip_children_mono cf _ f0 res j _ hval⟩
    by_cases hff : f = f0
    · obtain ⟨d, hd, hval⟩ := hconef0 n (by rw [← hff]; exact hchain)
      exact ⟨d, hd, skipPass_mono cf rest _ n _ hval⟩
    · have hfrest : f ∈ rest := (List.mem_cons.mp hf).resolve_left hff
      have hdisj' : ∀ f1 f2 k, f1 ∈ rest → f2 ∈ rest → DepChain cf f1 k →
          DepChain cf f2 k → f1 = f2 :=
        fun f1 f2 k h1 h2 hc1 hc2 =>
          hdisj f1 f2 k (List.mem_cons_of_mem _ h1) (List.mem_cons_of_mem _ h2) hc1 hc2
      have hcone' : ∀ f' ∈ rest,
          ConeAllNone cf (skip_children cf cf.checks.length f0 res) f' ∨
          ConeAllMarked cf (skip_children cf cf.checks.length f0 res) f' := by
        intro f' hf'
        by_cases hf0 : f' = f0
        · right
          rw [hf0]
          exact hconef0
        · rcases hcone f' (List.mem_cons_of_mem _ hf') with hc | hc
          · left
            intro j hj
            rcases skip_children_frame cf cf.checks.length f0 res j with h2 | ⟨hcj, _, _⟩
            · rw [h2]
              exact hc j hj
            · exact absurd (hdisj f' f0 j (List.mem_cons_of_mem _ hf')
                (List.mem_cons_self _ _) hj hcj) hf0
          · right
            intro j hj
            obtain ⟨d, hd, hval⟩ := hc j hj
            exact ⟨d, hd, skip_children_mono cf _ f0 res j _ hval⟩
      exact ih _ hdisj' hcone' f hfrest n hchain

/-! ## End-of-loop facts and the gating claims -/

theorem chain_unfinished (cf : ChecksFile) (st : RunState) (hwf : WellFormed cf)
    (hinv : LoopInv cf st) :
    ∀ a n, DepChain cf a n →
      (a ∈ st.notPassed ∨ dictLookup st.results a = some none) →
      dictLookup st.results n = some none ∧ ¬ n ∈ st.invoked.map Prod.fst ∧
        ¬ n ∈ st.notPassed := by
  obtain ⟨⟨hkeys, hnamed⟩, hstored, hjobs, hinvoked, hflags, hnp, hpassor⟩ := hinv
  intro a n hchain
  induction hchain with
  | @direct a' c hmem hdep =>
    intro hyp
    have hnotinv : ¬ c.name ∈ st.invoked.map Prod.fst := by
      intro hmem2
      obtain ⟨q, hq, hq2⟩ := List.mem_map.mp hmem2
      obtain ⟨c', hc', hc'n, hdep'⟩ := hinvoked q hq
      have hcc : c' = c := unique_by_name cf hwf.1 c' c hc' hmem (by rw [hc'n, hq2])
      rcases hdep' with hdep' | ⟨d, rd, hdep', hlook, hpass⟩
      · rw [hcc, hdep] at hdep'
        exact Option.noConfusion hdep'
      · rw [hcc, hdep] at hdep'
        injection hdep' with hda
        rw [← hda] at hlook
        rcases hyp with hyp | hyp
        · obtain ⟨h1, h2⟩ := hnp a' hyp
          rw [h1] at hlook
          injection hlook with h3
          injection h3 with h4
          rw [← h4] at hpass
          exact h2 hpass
        · rw [hyp] at hlook
          injection hlook with h3
          exact Option.noConfusion h3
    have hkeymem : c.name ∈ st.results.map Prod.fst := by
      rw [hkeys]
      exact List.mem_map.mpr ⟨c, hmem, rfl⟩
    obtain ⟨w, hw⟩ := dictLookup_some_of_mem_keys _ _ hkeymem
    have hwnone : w = none := by
      cases w with
      | none => rfl
      | some r => exact absurd (hstored c.name r hw).2 hnotinv
    rw [hwnone] at hw
    refine ⟨hw, hnotinv, ?_⟩
    intro hmem3
    obtain ⟨h1, _⟩ := hnp c.name hmem3
    rw [hw] at h1
    injection h1 with h2
    exact Option.noConfusion h2
  | @trans a' b' c' hab hbc ihab ihbc =>
    intro hyp
    obtain ⟨h1, _, _⟩ := ihab hyp
    exact ihbc (Or.inr h1)

/-- Claim C1: in every complete full run, each check function is invoked
only when its declared dependency already holds a `passed` result (the
ghost flag recorded at invocation time is always true), and whenever a
stored result is failed or errored, every transitive dependent is never
invoked and ends up holding its skip record in the final results. -/
theorem c1_dependency_gating (cf : ChecksFile) (hwf : WellFormed cf) (choices : List Nat)
    (st : RunState) (hrun : CheckRunner.runState cf none choices = .ok st) :
    (∀ q ∈ st.invoked, q.2 = true) ∧
    (∀ f rf, dictLookup st.results f = some (some rf) → ¬ rf.passed = some true →
      ∀ n, DepChain cf f n →
        ¬ n ∈ st.invoked.map Prod.fst ∧ MarkedAsSkip cf (finalResults cf st) n) := by
  rw [runState_none_eq] at hrun
  obtain ⟨hinv, _⟩ := runLoop_loopInv cf (dependency_graph cf) hwf.1
    (graphHyp_dependency_graph cf) choices _ st hrun
    (initState_loopInv cf (dependency_graph cf) (graphHyp_dependency_graph cf))
  refine ⟨hinv.2.2.2.2.1, ?_⟩
  intro f rf hlook hnpass n hchain
  have hfnp : f ∈ st.notPassed := by
    rcases hinv.2.2.2.2.2.2 f rf hlook with h | h
    · exact absurd h hnpass
    · exact h
  have hcu := chain_unfinished cf st hwf hinv
  obtain ⟨hlookn, hninv, _⟩ := hcu f n hchain (Or.inl hfnp)
  refine ⟨hninv, ?_⟩
  unfold finalResults
  refine skipPass_marks cf hwf st.notPassed st.results ?_ ?_ f hfnp n hchain
  · intro f1 f2 k hf1 hf2 hc1 hc2
    rcases ancestors_comparable cf hwf k f1 f2 hc1 hc2 with h | h | h
    · exact h
    · exact absurd hf2 (hcu f1 f2 h (Or.inl hf1)).2.2
    · exact absurd hf1 (hcu f2 f1 h (Or.inl hf2)).2.2
  · intro f' hf'
    left
    intro j hj
    exact (hcu f' j hj (Or.inl hf')).1

/-- Witness for C1 on the concrete run of `cfErrorChain` (a passes, b
errors, c and d are its transitive dependents). -/
theorem c1_witness :
    (∀ q ∈ (runStateD cfErrorChain none [0, 0]).invoked, q.2 = true) ∧
    (∀ f rf, dictLookup (runStateD cfErrorChain none [0, 0]).results f
        = some (some rf) →
      ¬ rf.passed = some true → ∀ n, DepChain cfErrorChain f n →
        ¬ n ∈ (runStateD cfErrorChain none [0, 0]).invoked.map Prod.fst ∧
        MarkedAsSkip cfErrorChain
          (finalResults cfErrorChain (runStateD cfErrorChain none [0, 0])) n) :=
  c1_dependency_gating cfErrorChain (by decide) [0, 0]
    (runStateD cfErrorChain none [0, 0]) rfl

/-! ## Output order (C8) -/

theorem pickGraph_graphHyp (cf : ChecksFile) (targets : Option (List String))
    (g : Option String → List String) (h : pickGraph cf targets = .ok g) :
    GraphHyp cf g := by
  cases targets with
  | none =>
    simp only [pickGraph] at h
    cases h
    exact graphHyp_dependency_graph cf
  | some ts =>
    simp only [pickGraph] at h
    by_cases hts : ts = []
    · rw [if_pos hts] at h
      cases h
      exact graphHyp_dependency_graph cf
    · rw [if_neg hts] at h
      cases hclo : dependencies_of cf ts with
      | error e =>
        rw [hclo] at h
        simp only [Except.map] at h
        cases h
      | ok closure =>
        rw [hclo] at h
        simp only [Except.map] at h
        cases h
        exact graphHyp_build_subgraph cf closure

theorem stepRun_resultsWF (cf : ChecksFile) (g : Option String → List String) (k : Nat)
    (st st' : RunState) (hg : GraphHyp cf g) (h : stepRun cf g k st = .ok st')
    (hP : ResultsWF cf st.results ∧ ∀ p ∈ st.notDone, p.1 ∈ check_names cf) :
    ResultsWF cf st'.results ∧ ∀ p ∈ st'.notDone, p.1 ∈ check_names cf := by
  obtain ⟨⟨hkeys, hnamed⟩, hjobs⟩ := hP
  unfold stepRun at h
  cases hp : pickJob st.notDone k with
  | none =>
    rw [hp] at h
    cases h
    exact ⟨⟨hkeys, hnamed⟩, hjobs⟩
  | some pr =>
    obtain ⟨⟨name, ds⟩, rest⟩ := pr
    rw [hp] at h
    simp only at h
    rw [execJob_name cf name] at h
    have hmemname : name ∈ check_names cf := hjobs (name, ds) (pickJob_mem _ _ _ _ hp)
    have hmemkeys : name ∈ st.results.map Prod.fst := by
      rw [hkeys]
      exact hmemname
    have hRWF : ResultsWF cf (dictUpdate st.results name (execJob cf name).1) := by
      constructor
      · rw [dictUpdate_keys_of_mem _ _ _ hmemkeys]
        exact hkeys
      · intro p hp2 r hr
        rcases mem_dictUpdate _ _ _ p hp2 with h2 | h2
        · exact hnamed p h2 r hr
        · rw [h2] at hr ⊢
          simp only at hr
          injection hr with h3
          exact h3 ▸ execJob_name cf name
    have hrest : ∀ p ∈ rest, p.1 ∈ check_names cf :=
      fun p hp2 => hjobs p (pickJob_subset _ _ _ _ hp p hp2)
    by_cases hpass : (execJob cf name).1.passed = some true
    · rw [if_pos hpass] at h
      by_cases hchild : g name = []
      · rw [if_pos hchild] at h
        cases h
        exact ⟨hRWF, hrest⟩
      · rw [if_neg hchild] at h
        by_cases hpick : statePicklable (execJob cf name).2 = true
        · rw [if_pos hpick] at h
          cases h
          refine ⟨hRWF, ?_⟩
          intro p hp2
          rcases List.mem_append.mp hp2 with hp2 | hp2
          · exact hrest p hp2
          · simp only [List.mem_map] at hp2
            obtain ⟨cname, hcn1, hcn2⟩ := hp2
            obtain ⟨c, hc, hcname, _⟩ := hg (some name) cname hcn1
            rw [← hcn2]
            exact List.mem_map.mpr ⟨c, hc, hcname⟩
        · rw [if_neg hpick] at h
          cases h
    · rw [if_neg hpass] at h
      cases h
      exact ⟨hRWF, hrest⟩

theorem runLoop_resultsWF (cf : ChecksFile) (g : Option String → List String)
    (hg : GraphHyp cf g) :
    ∀ choices st st', runLoop cf g choices st = .ok st' →
      (ResultsWF cf st.results ∧ ∀ p ∈ st.notDone, p.1 ∈ check_names cf) →
      ResultsWF cf st'.results := by
  intro choices
  induction choices with
  | nil =>
    intro st st' h hP
    unfold runLoop at h
    by_cases hd : st.notDone = []
    · rw [if_pos hd] at h
      cases h
      exact hP.1
    · rw [if_neg hd] at h
      cases h
  | cons k ks ih =>
    intro st st' h hP
    unfold runLoop at h
    by_cases hd : st.notDone = []
    · rw [if_pos hd] at h
      cases h
      exact hP.1
    · rw [if_neg hd] at h
      cases hs : stepRun cf g k st with
      | error e =>
        rw [hs] at h
        cases h
      | ok st'' =>
        rw [hs] at h
        exact ih st'' st' h (stepRun_resultsWF cf g k st st'' hg hs hP)

theorem runState_resultsWF (cf : ChecksFile) (targets : Option (List String))
    (choices : List Nat) (st : RunState)
    (hst : CheckRunner.runState cf targets choices = .ok st) :
    ResultsWF cf st.results := by
  unfold CheckRunner.runState at hst
  cases hg : pickGraph cf targets with
  | error e =>
    rw [hg] at hst
    cases hst
  | ok g =>
    rw [hg] at hst
    have hGH := pickGraph_graphHyp cf targets g hg
    have hloop : runLoop cf g choices (initState cf g) = .ok st := hst
    refine runLoop_resultsWF cf g hGH choices _ st hloop ⟨?_, ?_⟩
    · exact (initState_loopInv cf g hGH).1
    · intro p hp
      obtain ⟨c, hc, hcn, _⟩ := (initState_loopInv cf g hGH).2.2.1 p hp
      exact List.mem_map.mpr ⟨c, hc, hcn⟩

theorem named_filterMap_sublist :
    ∀ (l : List (String × Option CheckResult)),
      (∀ p ∈ l, ∀ r : CheckResult, p.2 = some r → r.name = p.1) →
      ((l.filterMap Prod.snd).map (fun r => r.name)).Sublist (l.map Prod.fst) := by
  intro l
  induction l with
  | nil =>
    intro _
    simp
  | cons p rest ih =>
    intro hn
    obtain ⟨k, v⟩ := p
    have ihr := ih (fun q hq => hn q (List.mem_cons_of_mem _ hq))
    cases v with
    | none =>
      have heq : List.filterMap Prod.snd ((k, (none : Option CheckResult)) :: rest)
          = List.filterMap Prod.snd rest := List.filterMap_cons_none rfl
      rw [heq, List.map_cons]
      exact ihr.cons k
    | some r =>
      have hr : r.name = k := hn (k, some r) (List.mem_cons_self _ _) r rfl
      have heq : List.filterMap Prod.snd ((k, some r) :: rest)
          = r :: List.filterMap Prod.snd rest := List.filterMap_cons_some rfl
      rw [heq, List.map_cons, List.map_cons, hr]
      exact ihr.cons₂ k

/-- Claim C8: the result list returned by `CheckRunner.run` is ordered by
the declaration order of the checks, for every target selection and every
completion schedule. -/
theorem c8_declaration_order (cf : ChecksFile) (targets : Option (List String))
    (choices : List Nat) (out : List CheckResult)
    (hrun : CheckRunner.run cf targets choices = .ok out) :
    (out.map (fun r => r.name)).Sublist (check_names cf) := by
  unfold CheckRunner.run at hrun
  cases hst : CheckRunner.runState cf targets choices with
  | error e =>
    rw [hst] at hrun
    simp only [Except.map] at hrun
    cases hrun
  | ok st =>
    rw [hst] at hrun
    simp only [Except.map] at hrun
    injection hrun with hout
    have hRWF : ResultsWF cf st.results := runState_resultsWF cf targets choices st hst
    have hRWF2 : ResultsWF cf (finalResults cf st) := skipPass_resultsWF cf _ _ hRWF
    rw [← hout]
    have hsub := named_filterMap_sublist (finalResults cf st) hRWF2.2
    rw [hRWF2.1] at hsub
    exact hsub

/-- Witness for C8: two independent checks completing in reverse order
still come out in declaration order. -/
theorem c8_witness :
    ((runOutD cfTwo none [1, 0]).map (fun r => r.name)).Sublist (check_names cfTwo) ∧
    (runOutD cfTwo none [1, 0]).map (fun r => r.name) = ["a", "b"] :=
  ⟨c8_declaration_order cfTwo none [1, 0] (runOutD cfTwo none [1, 0]) rfl, rfl⟩

/-! ## Target-filtered runs (C2) -/

theorem build_subgraph_subset (cf : ChecksFile) (closure : List String) :
    ∀ d n, n ∈ build_subgraph cf closure d → n ∈ closure := by
  intro d n hn
  cases d with
  | none =>
    simp only [build_subgraph, List.mem_filter, decide_eq_true_eq] at hn
    exact hn.2
  | some d' =>
    simp only [build_subgraph] at hn
    by_cases hd : d' ∈ closure
    · rw [if_pos hd] at hn
      simp only [List.mem_filter, decide_eq_true_eq] at hn
      exact hn.2
    · rw [if_neg hd] at hn
      simp at hn

theorem stepRun_subInv (cf : ChecksFile) (g : Option String → List String)
    (S : List String) (k : Nat) (st st' : RunState)
    (hS : ∀ d n, n ∈ g d → n ∈ S) (h : stepRun cf g k st = .ok st')
    (hsub : (∀ p ∈ st.notDone, p.1 ∈ S) ∧ ∀ q ∈ st.invoked, q.1 ∈ S) :
    (∀ p ∈ st'.notDone, p.1 ∈ S) ∧ ∀ q ∈ st'.invoked, q.1 ∈ S := by
  obtain ⟨hnd, hin⟩ := hsub
  unfold stepRun at h
  cases hp : pickJob st.notDone k with
  | none =>
    rw [hp] at h
    cases h
    exact ⟨hnd, hin⟩
  | some pr =>
    obtain ⟨⟨name, ds⟩, rest⟩ := pr
    rw [hp] at h
    simp only at h
    rw [execJob_name cf name] at h
    have hname : name ∈ S := hnd (name, ds) (pickJob_mem _ _ _ _ hp)
    have hrest : ∀ p ∈ rest, p.1 ∈ S :=
      fun p hp2 => hnd p (pickJob_subset _ _ _ _ hp p hp2)
    have hinv1 : ∀ q ∈ st.invoked ++ [(name, depPassedNow cf st.results name)],
        q.1 ∈ S := by
      intro q hq
      rcases List.mem_append.mp hq with hq | hq
      · exact hin q hq
      · rw [List.mem_singleton.mp hq]
        exact hname
    by_cases hpass : (execJob cf name).1.passed = some true
    · rw [if_pos hpass] at h
      by_cases hchild : g name = []
      · rw [if_pos hchild] at h
        cases h
        exact ⟨hrest, hinv1⟩
      · rw [if_neg hchild] at h
        by_cases hpick : statePicklable (execJob cf name).2 = true
        · rw [if_pos hpick] at h
          cases h
          refine ⟨?_, hinv1⟩
          intro p hp2
          rcases List.mem_append.mp hp2 with hp2 | hp2
          · exact hrest p hp2
          · simp only [List.mem_map] at hp2
            obtain ⟨cname, hcn1, hcn2⟩ := hp2
            rw [← hcn2]
            exact hS (some name) cname hcn1
        · rw [if_neg hpick] at h
          cases h
    · rw [if_neg hpass] at h
      cases h
      exact ⟨hrest, hinv1⟩

theorem runLoop_subInv (cf : ChecksFile) (g : Option String → List String)
    (S : List String) (hS : ∀ d n, n ∈ g d → n ∈ S) :
    ∀ choices st st', runLoop cf g choices st = .ok st' →
      ((∀ p ∈ st.notDone, p.1 ∈ S) ∧ ∀ q ∈ st.invoked, q.1 ∈ S) →
      (∀ p ∈ st'.notDone, p.1 ∈ S) ∧ ∀ q ∈ st'.invoked, q.1 ∈ S := by
  intro choices
  induction choices with
  | nil =>
    intro st st' h hsub
    unfold runLoop at h
    by_cases hd : st.notDone = []
    · rw [if_pos hd] at h
      cases h
      exact hsub
    · rw [if_neg hd] at h
      cases h
  | cons k ks ih =>
    intro st st' h hsub
    unfold runLoop at h
    by_cases hd : st.notDone = []
    · rw [if_pos hd] at h
      cases h
      exact hsub
    · rw [if_neg hd] at h
      cases hs : stepRun cf g k st with
      | error e =>
        rw [hs] at h
        cases h
      | ok st'' =>
        rw [hs] at h
        exact ih st'' st' h (stepRun_subInv cf g S k st st'' hS hs hsub)

theorem dictLookup_mem {α : Type} (l : List (String × α)) (k : String) (v : α)
    (h : dictLookup l k = some v) : (k, v) ∈ l := by
  induction l with
  | nil => simp [dictLookup] at h
  | cons p rest ih =>
    obtain ⟨k', v'⟩ := p
    by_cases h2 : k' = k
    · simp only [dictLookup, if_pos h2] at h
      injection h with h3
      rw [← h2, ← h3]
      exact List.mem_cons_self _ _
    · simp only [dictLookup, if_neg h2] at h
      exact List.mem_cons_of_mem _ (ih h)

theorem skipPass_frame_chain (cf : ChecksFile) :
    ∀ np res k,
      dictLookup (skipPass cf np res) k = dictLookup res k ∨
      ((∃ f ∈ np, DepChain cf f k) ∧ MarkedAsSkip cf (skipPass cf np res) k) := by
  intro np
  induction np with
  | nil =>
    intro res k
    left
    simp [skipPass]
  | cons f rest ih =>
    intro res k
    rw [skipPass_cons]
    rcases ih (skip_children cf cf.checks.length f res) k with h | ⟨⟨f', hf', hc⟩, hmark⟩
    · rcases skip_children_frame cf cf.checks.length f res k with h2 | ⟨hc, _, hmark⟩
      · left
        rw [h, h2]
      · right
        refine ⟨⟨f, List.mem_cons_self _ _, hc⟩, ?_⟩
        obtain ⟨d, hd, hval⟩ := hmark
        exact ⟨d, hd, by rw [h]; exact hval⟩
    · exact Or.inr ⟨⟨f', List.mem_cons_of_mem _ hf', hc⟩, hmark⟩

/-- Claim C2 amended: in a target-filtered run only checks inside the target
closure (each target plus its transitive dependencies) are ever submitted or
invoked; every result in the output either belongs to the closure or is a
skip record; every transitive dependent of a check whose stored result is
failed or errored — also one outside the closure — is never invoked, yet its
skip record does appear in the output, because the post-loop skip pass walks
the full dependency graph; and a check outside the closure none of whose
ancestors holds a failed or errored result is absent from the output. -/
theorem c2_amended (cf : ChecksFile) (hwf : WellFormed cf) (ts closure : List String)
    (choices : List Nat) (st : RunState) (out : List CheckResult)
    (hts : ¬ ts = []) (hclo : dependencies_of cf ts = .ok closure)
    (hrun : CheckRunner.runState cf (some ts) choices = .ok st)
    (hout : CheckRunner.run cf (some ts) choices = .ok out) :
    (∀ q ∈ st.invoked, q.1 ∈ closure) ∧
    (∀ p ∈ st.notDone, p.1 ∈ closure) ∧
    (∀ r ∈ out, r.name ∈ closure ∨ ∃ d, r = skipResult cf d r.name) ∧
    (∀ f rf, dictLookup st.results f = some (some rf) → ¬ rf.passed = some true →
      ∀ n, DepChain cf f n →
        ¬ n ∈ st.invoked.map Prod.fst ∧
        ∃ d, IsDepOf cf n d ∧ skipResult cf d n ∈ out) ∧
    (∀ n, ¬ n ∈ closure →
      (∀ f rf, DepChain cf f n → dictLookup st.results f = some (some rf) →
        rf.passed = some true) →
      ∀ r ∈ out, ¬ r.name = n) := by
  have hrun' := hrun
  rw [runState_targets_eq cf ts closure choices hts hclo] at hrun'
  have hGH : GraphHyp cf (build_subgraph cf closure) := graphHyp_build_subgraph cf closure
  have hSg := build_subgraph_subset cf closure
  obtain ⟨hinv, _⟩ := runLoop_loopInv cf _ hwf.1 hGH choices _ st hrun'
    (initState_loopInv cf _ hGH)
  have hsub0 : (∀ p ∈ (initState cf (build_subgraph cf closure)).notDone, p.1 ∈ closure) ∧
      ∀ q ∈ (initState cf (build_subgraph cf closure)).invoked, q.1 ∈ closure := by
    constructor
    · intro p hp
      simp only [initState, List.mem_map] at hp
      obtain ⟨n, hn1, hn2⟩ := hp
      rw [← hn2]
      exact hSg none n hn1
    · intro q hq
      simp [initState] at hq
  obtain ⟨hndS, hinS⟩ := runLoop_subInv cf _ closure hSg choices _ st hrun' hsub0
  unfold CheckRunner.run at hout
  rw [hrun] at hout
  simp only [Except.map] at hout
  injection hout with hout2
  have hRWF : ResultsWF cf st.results := hinv.1
  have hRWF2 : ResultsWF cf (finalResults cf st) := skipPass_resultsWF cf _ _ hRWF
  have hndkeys : ((finalResults cf st).map Prod.fst).Nodup := by
    rw [hRWF2.1]
    exact hwf.1
  refine ⟨hinS, hndS, ?_, ?_, ?_⟩
  · intro r hr
    rw [← hout2] at hr
    obtain ⟨p, hp, hp2⟩ := List.mem_filterMap.mp hr
    obtain ⟨k, v⟩ := p
    have hv : v = some r := hp2
    rw [hv] at hp
    have hlookup : dictLookup (skipPass cf st.notPassed st.results) k = some (some r) :=
      dictLookup_of_mem_nodup _ k (some r) hndkeys hp
    rcases skipPass_frame cf st.notPassed st.results k with hfr | hfr
    · have hlook2 : dictLookup st.results k = some (some r) := by
        rw [← hfr]
        exact hlookup
      obtain ⟨hre, hkinv⟩ := hinv.2.1 k r hlook2
      left
      obtain ⟨q, hq, hq2⟩ := List.mem_map.mp hkinv
      have hrname : r.name = k := by
        rw [hre]
        exact execJob_name cf k
      rw [hrname, ← hq2]
      exact hinS q hq
    · obtain ⟨d, hd, hval⟩ := hfr
      rw [hlookup] at hval
      injection hval with h3
      injection h3 with h4
      right
      refine ⟨d, ?_⟩
      have hrname : r.name = k := by
        rw [h4]
        rfl
      rw [hrname]
      exact h4
  · intro f rf hlook hnpass n hchain
    have hfnp : f ∈ st.notPassed := by
      rcases hinv.2.2.2.2.2.2 f rf hlook with h | h
      · exact absurd h hnpass
      · exact h
    have hcu := chain_unfinished cf st hwf hinv
    obtain ⟨_, hninv, _⟩ := hcu f n hchain (Or.inl hfnp)
    refine ⟨hninv, ?_⟩
    have hmark : MarkedAsSkip cf (finalResults cf st) n := by
      unfold finalResults
      refine skipPass_marks cf hwf st.notPassed st.results ?_ ?_ f hfnp n hchain
      · intro f1 f2 k hf1 hf2 hc1 hc2
        rcases ancestors_comparable cf hwf k f1 f2 hc1 hc2 with h | h | h
        · exact h
        · exact absurd hf2 (hcu f1 f2 h (Or.inl hf1)).2.2
        · exact absurd hf1 (hcu f2 f1 h (Or.inl hf2)).2.2
      · intro f' hf'
        left
        intro j hj
        exact (hcu f' j hj (Or.inl hf')).1
    obtain ⟨d, hd, hval⟩ := hmark
    refine ⟨d, hd, ?_⟩
    rw [← hout2]
    exact List.mem_filterMap.mpr
      ⟨(n, some (skipResult cf d n)), dictLookup_mem _ n _ hval, rfl⟩
  · intro n hnclo hnofail r hr hname
    rw [← hout2] at hr
    obtain ⟨p, hp, hp2⟩ := List.mem_filterMap.mp hr
    obtain ⟨k, v⟩ := p
    have hv : v = some r := hp2
    rw [hv] at hp
    have hkname : r.name = k := hRWF2.2 (k, some r) hp r rfl
    have hkn : k = n := by
      rw [← hkname, hname]
    rw [hkn] at hp
    have hlookup : dictLookup (skipPass cf st.notPassed st.results) n = some (some r) :=
      dictLookup_of_mem_nodup _ n (some r) hndkeys hp
    rcases skipPass_frame_chain cf st.notPassed st.results n with hfr | ⟨⟨f0, hf0, hchain⟩, _⟩
    · have hlook2 : dictLookup st.results n = some (some r) := by
        rw [← hfr]
        exact hlookup
      obtain ⟨_, hkinv⟩ := hinv.2.1 n r hlook2
      obtain ⟨q, hq, hq2⟩ := List.mem_map.mp hkinv
      exact hnclo (hq2 ▸ hinS q hq)
    · obtain ⟨hlookf0, hnpassf0⟩ := hinv.2.2.2.2.2.1 f0 hf0
      exact hnpassf0 (hnofail f0 _ hchain hlookf0)

/-- Witness for the amended C2 on the targeted run of `cfChain`. -/
theorem c2_amended_witness :
    (∀ q ∈ (runStateD cfChain (some ["b"]) [0]).invoked, q.1 ∈ ["b", "a"]) ∧
    (∀ p ∈ (runStateD cfChain (some ["b"]) [0]).notDone, p.1 ∈ ["b", "a"]) ∧
    (∀ r ∈ runOutD cfChain (some ["b"]) [0],
      r.name ∈ ["b", "a"] ∨ ∃ d, r = skipResult cfChain d r.name) ∧
    (∀ f rf, dictLookup (runStateD cfChain (some ["b"]) [0]).results f
        = some (some rf) →
      ¬ rf.passed = some true → ∀ n, DepChain cfChain f n →
        ¬ n ∈ (runStateD cfChain (some ["b"]) [0]).invoked.map Prod.fst ∧
        ∃ d, IsDepOf cfChain n d ∧
          skipResult cfChain d n ∈ runOutD cfChain (some ["b"]) [0]) ∧
    (∀ n, ¬ n ∈ (["b", "a"] : List String) →
      (∀ f rf, DepChain cfChain f n →
        dictLookup (runStateD cfChain (some ["b"]) [0]).results f = some (some rf) →
        rf.passed = some true) →
      ∀ r ∈ runOutD cfChain (some ["b"]) [0], ¬ r.name = n) :=
  c2_amended cfChain (by decide) ["b"] ["b", "a"] [0]
    (runStateD cfChain (some ["b"]) [0]) (runOutD cfChain (some ["b"]) [0])
    (by decide) rfl rfl rfl
